import Mathlib

/-!
# skm: key store, activation and deletion (utils.go)

A shallow embedding of `utils.go`.  The program is a sequence of file-system
calls, so the embedding consists of

* a model of the file system: a tree of regular files, symbolic links and
  directories, with path resolution that follows symbolic links the way the
  kernel does (`namei`), and the calls the program uses
  (`Lstat`, `Stat`, `Readlink`, `Remove`, `RemoveAll`, `Symlink`,
  `filepath.Walk`);
* the functions of `utils.go`, each translated statement by statement, taking
  the file-system state as an explicit argument and returning the new state.

Modelling conventions.

* A cleaned absolute path is the list of its components; `filepath.Join` of
  cleaned components is list append.  A Go string holding a path is a
  `PathStr`: `none` is the empty string, `some cs` the path `/c₁/…/cₙ`.
* `HOME` is a parameter `home`; `storePath` is `home/.skm` and `sshPath` is
  `home/.ssh`, as in the `var` block of the source.
* An alias is one path component (a directory name).
* The target of a symbolic link is an absolute cleaned path.
* A directory lists its entries in lexical order of their names, which is the
  order in which `filepath.Walk` visits them.
* There are no permissions and no I/O errors: a call fails only with the
  errors that the shape of the tree gives (`ENOENT`, `ENOTDIR`, `ELOOP`,
  `EEXIST`, `ENOTEMPTY`).
* Messages printed to the terminal are not part of the state.
* `os.Exit` is the `exit` outcome of `Outcome`.
-/

namespace Skm

/-! ## The file system -/

/-- A cleaned absolute path, as the list of its components. -/
abbrev Path := List String

/-- A Go string that holds a path: `none` is the empty string. -/
abbrev PathStr := Option Path

/-- The error numbers the model can produce. -/
inductive Errno where
  | ENOENT
  | ENOTDIR
  | ELOOP
  | EEXIST
  | ENOTEMPTY
  | EBUSY
  | EINVAL
  deriving DecidableEq, Repr

/-- An entry of the file system. -/
inductive Node where
  | file (data : String)
  | link (target : Path)
  | dir (entries : List (String × Node))

/-- The state of the file system: the entries of the root directory. -/
structure FS where
  root : List (String × Node)

/-- The result of a computation that may end the process with `os.Exit`. -/
inductive Outcome (α : Type) where
  | ret (a : α)
  | exit (code : Nat)
  deriving DecidableEq

/-- The part of `os.FileInfo` the program reads. -/
structure FileInfo where
  name : String
  isDir : Bool
  isSymlink : Bool
  deriving DecidableEq

instance instDecidableEqResult {ε α : Type} [DecidableEq ε] [DecidableEq α] :
    DecidableEq (Except ε α) := fun a b =>
  match a, b with
  | .ok x, .ok y => if h : x = y then isTrue (by rw [h]) else isFalse (fun e => h (by cases e; rfl))
  | .error x, .error y =>
    if h : x = y then isTrue (by rw [h]) else isFalse (fun e => h (by cases e; rfl))
  | .ok _, .error _ => isFalse (fun e => by cases e)
  | .error _, .ok _ => isFalse (fun e => by cases e)

/-- Whether the entry is a directory. -/
def Node.isDir : Node → Bool
  | .dir _ => true
  | _ => false

/-- Whether the entry is a symbolic link. -/
def Node.isLink : Node → Bool
  | .link _ => true
  | _ => false

/-- The entry called `name` in a directory listing. -/
def lookup (name : String) : List (String × Node) → Option Node
  | [] => none
  | (n, x) :: rest => if n = name then some x else lookup name rest

/-- The listing without the entry called `name`. -/
def eraseEntry (name : String) (es : List (String × Node)) : List (String × Node) :=
  es.filter (fun e => decide (e.1 ≠ name))

/-- The listing with a new entry, put at its place in the lexical order. -/
def insertEntry (name : String) (x : Node) : List (String × Node) → List (String × Node)
  | [] => [(name, x)]
  | (n, y) :: rest =>
    if name.data < n.data then (name, x) :: (n, y) :: rest
    else (n, y) :: insertEntry name x rest

/-- The last symbolic-link-free stretch of a path resolution. -/
inductive Trace where
  | found (real : Path) (n : Node)
  | jump (p : Path)
  | fail (e : Errno)

/-- Walks the components of a path down from the directory `cur` (whose real
path is `acc`) until the path ends, a component is missing, or a symbolic link
has to be followed.  The last component is followed only when `follow`. -/
def descend (follow : Bool) : Node → Path → Path → Trace
  | cur, acc, [] => .found acc cur
  | cur, acc, c :: rest =>
    match cur with
    | .dir es =>
      match lookup c es with
      | none => .fail .ENOENT
      | some (.link t) =>
        if rest.isEmpty && !follow then .found (acc ++ [c]) (.link t)
        else .jump (t ++ rest)
      | some n => descend follow n (acc ++ [c]) rest
    | _ => .fail .ENOTDIR

/-- Path resolution: the real path of the entry a path names and the entry,
following at most `hops` symbolic links. -/
def namei (fs : FS) (follow : Bool) : Nat → Path → Except Errno (Path × Node)
  | 0, p =>
    match descend follow (.dir fs.root) [] p with
    | .found r n => .ok (r, n)
    | .jump _ => .error .ELOOP
    | .fail e => .error e
  | hops + 1, p =>
    match descend follow (.dir fs.root) [] p with
    | .found r n => .ok (r, n)
    | .jump q => namei fs follow hops q
    | .fail e => .error e

/-- The number of symbolic links one path resolution may follow. -/
def maxSymlinks : Nat := 40

/-- The entry at a path, the last component not followed. -/
def lstatNode (fs : FS) (p : Path) : Except Errno (Path × Node) :=
  namei fs false maxSymlinks p

/-- The entry at a path, the last component followed. -/
def statNode (fs : FS) (p : Path) : Except Errno (Path × Node) :=
  namei fs true maxSymlinks p

/-- The base name of a path. -/
def baseName (p : Path) : String :=
  p.getLast?.getD "/"

/-- The `FileInfo` of an entry reached under the name `name`. -/
def infoOf (name : String) (n : Node) : FileInfo :=
  { name := name, isDir := n.isDir, isSymlink := n.isLink }

/-- Model of `os.Lstat`. -/
def Lstat (fs : FS) (p : Path) : Except Errno FileInfo :=
  match lstatNode fs p with
  | .ok (_, n) => .ok (infoOf (baseName p) n)
  | .error e => .error e

/-- Model of `os.Stat`. -/
def Stat (fs : FS) (p : Path) : Except Errno FileInfo :=
  match statNode fs p with
  | .ok (_, n) => .ok (infoOf (baseName p) n)
  | .error e => .error e

/-- Model of `os.Readlink`. -/
def Readlink (fs : FS) (p : Path) : Except Errno Path :=
  match lstatNode fs p with
  | .ok (_, .link t) => .ok t
  | .ok _ => .error .EINVAL
  | .error e => .error e

/-- Model of `os.IsNotExist` on the error of a call. -/
def IsNotExist {α : Type} : Except Errno α → Bool
  | .error .ENOENT => true
  | _ => false

/-- A path split into its directory and its last component. -/
def splitLast : Path → Option (Path × String)
  | [] => none
  | [c] => some ([], c)
  | c :: d :: rest =>
    match splitLast (d :: rest) with
    | some (p, n) => some (c :: p, n)
    | none => none

/-- Applies `f` to the listing of the directory at the real path `p`. -/
def updateEntries (f : List (String × Node) → List (String × Node)) :
    Path → List (String × Node) → List (String × Node)
  | [], es => f es
  | c :: cs, es =>
    es.map (fun e =>
      if e.1 = c then
        match e.2 with
        | .dir sub => (e.1, .dir (updateEntries f cs sub))
        | _ => e
      else e)

/-- Model of `os.Remove`: unlinks a file or a symbolic link, removes an empty
directory. -/
def Remove (fs : FS) (p : Path) : FS × Option Errno :=
  match splitLast p with
  | none => (fs, some .EBUSY)
  | some (d, name) =>
    match statNode fs d with
    | .error e => (fs, some e)
    | .ok (rd, .dir es) =>
      match lookup name es with
      | none => (fs, some .ENOENT)
      | some (.dir (_ :: _)) => (fs, some .ENOTEMPTY)
      | some _ => (⟨updateEntries (eraseEntry name) rd fs.root⟩, none)
    | .ok _ => (fs, some .ENOTDIR)

/-- Model of `os.RemoveAll`: removes the entry and all it contains; a path
that does not exist is not an error. -/
def RemoveAll (fs : FS) (p : Path) : FS × Option Errno :=
  match splitLast p with
  | none => (fs, some .EBUSY)
  | some (d, name) =>
    match statNode fs d with
    | .error .ENOENT => (fs, none)
    | .error e => (fs, some e)
    | .ok (rd, .dir es) =>
      match lookup name es with
      | none => (fs, none)
      | some _ => (⟨updateEntries (eraseEntry name) rd fs.root⟩, none)
    | .ok _ => (fs, some .ENOTDIR)

/-- Model of `os.Symlink oldname newname`. -/
def Symlink (fs : FS) (oldname newname : Path) : FS × Option Errno :=
  match splitLast newname with
  | none => (fs, some .EEXIST)
  | some (d, name) =>
    match statNode fs d with
    | .error e => (fs, some e)
    | .ok (rd, .dir es) =>
      match lookup name es with
      | some _ => (fs, some .EEXIST)
      | none => (⟨updateEntries (insertEntry name (.link oldname)) rd fs.root⟩, none)
    | .ok _ => (fs, some .ENOTDIR)

/-- The type of the function `filepath.Walk` calls at every entry, with the
state the closure captures made explicit. -/
abbrev WalkFunc (σ : Type) :=
  Path → Option FileInfo → Option Errno → σ → Outcome (σ × Option Errno)

mutual
/-- The recursive `walk` of `path/filepath`: calls `fn` at the entry, then
descends into a directory in the order of its listing and stops at the first
error `fn` returns.  (`filepath.SkipDir` is not modelled: the closures of
`utils.go` return `nil` or the error they were given, never `SkipDir`.) -/
def walk {σ : Type} (fn : WalkFunc σ) (path : Path) : Node → σ → Outcome (σ × Option Errno)
  | .dir es, s =>
    match fn path (some (infoOf (baseName path) (.dir es))) none s with
    | .exit c => .exit c
    | .ret (s1, some e) => .ret (s1, some e)
    | .ret (s1, none) => walkEntries fn path es s1
  | .file d, s => fn path (some (infoOf (baseName path) (.file d))) none s
  | .link t, s => fn path (some (infoOf (baseName path) (.link t))) none s
/-- The loop of `walk` over the names of a directory. -/
def walkEntries {σ : Type} (fn : WalkFunc σ) (path : Path) :
    List (String × Node) → σ → Outcome (σ × Option Errno)
  | [], s => .ret (s, none)
  | (name, x) :: rest, s =>
    match walk fn (path ++ [name]) x s with
    | .exit c => .exit c
    | .ret (s1, some e) => .ret (s1, some e)
    | .ret (s1, none) => walkEntries fn path rest s1
end

/-- Model of `filepath.Walk`. -/
def Walk {σ : Type} (fs : FS) (root : Path) (fn : WalkFunc σ) (s : σ) :
    Outcome (σ × Option Errno) :=
  match lstatNode fs root with
  | .error e => fn root none (some e) s
  | .ok (_, n) => walk fn root n s

/-- Model of `strings.HasPrefix` on the characters of the strings. -/
def startsWith : List Char → List Char → Bool
  | _, [] => true
  | [], _ :: _ => false
  | c :: cs, d :: ds => c = d && startsWith cs ds

/-- Whether `sub` occurs in the list of characters. -/
def containsChars (sub : List Char) : List Char → Bool
  | [] => sub.isEmpty
  | c :: cs => startsWith (c :: cs) sub || containsChars sub cs

/-- Model of `strings.Contains`. -/
def strContains (s sub : String) : Bool :=
  containsChars sub.data s.data

/-! ## utils.go -/

/-- The constant `publicKey`. -/
def publicKey : String := "id_rsa.pub"

/-- The constant `privateKey`. -/
def privateKey : String := "id_rsa"

/-- The variable `storePath`. -/
def storePath (home : Path) : Path := home ++ [".skm"]

/-- The variable `sshPath`. -/
def sshPath (home : Path) : Path := home ++ [".ssh"]

/-- Modelled from the spec: the declaration of the struct `SSHKey` is not in
`utils.go`; its fields are the three the functions of `utils.go` read and
write (the spec's KeyPair: `publicKeyPath`, `privateKeyPath`, `isActive`). -/
structure SSHKey where
  PublicKey : PathStr
  PrivateKey : PathStr
  IsDefault : Bool
  deriving DecidableEq

/-- A Go `map[string]*SSHKey`, as the list of its entries (keys distinct). -/
abbrev KeyMap := List (String × SSHKey)

/-- The value `m[k]` of a map. -/
def KeyMap.get (m : KeyMap) (k : String) : Option SSHKey :=
  match m with
  | [] => none
  | (n, v) :: rest => if n = k then some v else KeyMap.get rest k

/-- The assignment `m[k] = v`. -/
def KeyMap.set (m : KeyMap) (k : String) (v : SSHKey) : KeyMap :=
  (k, v) :: m.filter (fun e => decide (e.1 ≠ k))

/-- The function `parsePath`. -/
def parsePath (fs : FS) (path : Path) : Outcome PathStr :=
  match Lstat fs path with
  | .error _ => .ret none
  | .ok fileInfo =>
    if fileInfo.isSymlink then
      match Readlink fs path with
      | .error _ => .exit 1
      | .ok originFile => .ret (some originFile)
    else .ret (some path)

/-- The function `clearKey`. -/
def clearKey (home : Path) (fs : FS) : FS :=
  let privateKeyPath := sshPath home ++ [privateKey]
  let fs1 := if !IsNotExist (Stat fs privateKeyPath) then (Remove fs privateKeyPath).1 else fs
  let publicKeyPath := sshPath home ++ [publicKey]
  if !IsNotExist (Stat fs1 publicKeyPath) then (Remove fs1 publicKeyPath).1 else fs1

/-- The function `createLink`. -/
def createLink (home : Path) (fs : FS) (aliasName : String) : FS :=
  let fs1 := clearKey home fs
  let fs2 := (Symlink fs1 (storePath home ++ [aliasName, privateKey]) (sshPath home ++ [privateKey])).1
  (Symlink fs2 (storePath home ++ [aliasName, publicKey]) (sshPath home ++ [publicKey])).1

/-- The function `deleteKey`; `input` is the token `fmt.Scan` reads. -/
def deleteKey (home : Path) (fs : FS) (aliasName : String) (key : SSHKey) (input : String) :
    Outcome FS :=
  match parsePath fs (sshPath home ++ [privateKey]) with
  | .exit c => .exit c
  | .ret target =>
    let inUse := decide (key.PrivateKey = target)
    if input = "y" then
      let fs1 := if inUse then clearKey home fs else fs
      .ret (RemoveAll fs1 (storePath home ++ [aliasName])).1
    else .ret fs

/-- The closure `loadSingleKey` passes to `filepath.Walk`; the captured
variable `key` is the state. -/
def loadSingleKeyFn (home : Path) (fs : FS) (keyPath : Path) : WalkFunc SSHKey :=
  fun path f err key =>
    match f with
    | none => .ret (key, err)
    | some f =>
      if path = keyPath then .ret (key, none)
      else if f.isDir then .ret (key, none)
      else if strContains f.name ".pub" then .ret ({ key with PublicKey := some path }, none)
      else
        match parsePath fs (sshPath home ++ [privateKey]) with
        | .exit c => .exit c
        | .ret target =>
          if some path = target then
            .ret ({ key with PrivateKey := some path, IsDefault := true }, none)
          else .ret ({ key with PrivateKey := some path }, none)

/-- The function `loadSingleKey`. -/
def loadSingleKey (home : Path) (fs : FS) (keyPath : Path) : Outcome (Option SSHKey) :=
  match Walk fs keyPath (loadSingleKeyFn home fs keyPath)
      { PublicKey := none, PrivateKey := none, IsDefault := false } with
  | .exit c => .exit c
  | .ret (_, some _) => .ret none
  | .ret (key, none) =>
    if key.PublicKey ≠ none ∧ key.PrivateKey ≠ none then .ret (some key) else .ret none

/-- The closure `loadSSHKeys` passes to `filepath.Walk`; the captured map
`keys` is the state. -/
def loadSSHKeysFn (home : Path) (fs : FS) : WalkFunc KeyMap :=
  fun path f err keys =>
    match f with
    | none => .ret (keys, err)
    | some f =>
      if path = storePath home then .ret (keys, none)
      else if f.isDir then
        match loadSingleKey home fs path with
        | .exit c => .exit c
        | .ret (some key) => .ret (keys.set f.name key, none)
        | .ret none => .ret (keys, none)
      else .ret (keys, none)

/-- The function `loadSSHKeys`. -/
def loadSSHKeys (home : Path) (fs : FS) : Outcome KeyMap :=
  match Walk fs (storePath home) (loadSSHKeysFn home fs) [] with
  | .exit c => .exit c
  | .ret (keys, _) => .ret keys

/-- Modelled from the spec: the local time `time.Now()` returns, as the fields
`Format` reads: the year is a signed integer, as `Time.Year` returns it; the
other fields are natural numbers.  The package `time` is not part of the
repository. -/
structure LocalTime where
  year : Int
  month : Nat
  day : Nat
  hour : Nat
  minute : Nat
  second : Nat

/-- The fields of a local time other than the year are in the ranges of the
calendar and clock. -/
def LocalTime.valid (t : LocalTime) : Prop :=
  1 ≤ t.month ∧ t.month ≤ 12 ∧ 1 ≤ t.day ∧ t.day ≤ 31 ∧
    t.hour ≤ 23 ∧ t.minute ≤ 59 ∧ t.second ≤ 59

instance instDecidableValid (t : LocalTime) : Decidable t.valid := by
  unfold LocalTime.valid
  infer_instance

/-- The decimal digits of `x`, least significant first (`fuel` bounds their number). -/
def digitsRev : Nat → Nat → List Char
  | 0, _ => []
  | fuel + 1, x =>
    if x < 10 then [Nat.digitChar x]
    else Nat.digitChar (x % 10) :: digitsRev fuel (x / 10)

/-- All the decimal digits of `u`, padded with zeros on the left to `width`. -/
def padNat (u width : Nat) : List Char :=
  let ds := (digitsRev (u + 1) u).reverse
  List.replicate (width - ds.length) '0' ++ ds

/-- Modelled from the spec: `appendInt` of the package `time`, which writes a
minus sign when `x` is negative and then all the decimal digits of the
absolute value of `x`, padded with zeros on the left to `width`. -/
def appendInt (x : Int) (width : Nat) : List Char :=
  if x < 0 then '-' :: padNat x.natAbs width else padNat x.natAbs width

/-- Modelled from the spec: `Format` with the layout "20060102150405": the year
in four digits, then month, day, hour, minute and second in two digits each. -/
def formatStamp (t : LocalTime) : List Char :=
  appendInt t.year 4 ++ appendInt t.month 2 ++ appendInt t.day 2 ++
    appendInt t.hour 2 ++ appendInt t.minute 2 ++ appendInt t.second 2

/-- The function `getBakFileName`; `now` is the value of `time.Now()`. -/
def getBakFileName (now : LocalTime) : String :=
  "skm-" ++ String.mk (formatStamp now) ++ ".tar.gz"

/-! ## Notions used to state the properties -/

/-- The fourteen digits of the time stamp `YYYYMMDDHHMMSS` of a local time
whose year is `y`: thousands, hundreds, tens and units of the year, then tens
and units of the month, the day, the hour, the minute and the second. -/
def stampDigits (y : Nat) (t : LocalTime) : List Nat :=
  [y / 1000, y / 100 % 10, y / 10 % 10, y % 10,
   t.month / 10, t.month % 10, t.day / 10, t.day % 10,
   t.hour / 10, t.hour % 10, t.minute / 10, t.minute % 10,
   t.second / 10, t.second % 10]

/-- The names of a listing are in strictly increasing lexical order. -/
def namesSorted (es : List (String × Node)) : Prop :=
  es.Pairwise (fun a b => a.1.data < b.1.data)

instance instDecidableNamesSorted (es : List (String × Node)) : Decidable (namesSorted es) := by
  unfold namesSorted
  infer_instance

mutual
/-- Every directory of the subtree lists its entries in strictly increasing
lexical order of their names (so no name occurs twice in a directory). -/
def Node.wf : Node → Bool
  | .dir es => decide (namesSorted es) && wfEntries es
  | .file _ => true
  | .link _ => true
/-- Every entry of the listing is well formed. -/
def wfEntries : List (String × Node) → Bool
  | [] => true
  | (_, x) :: rest => x.wf && wfEntries rest
end

mutual
/-- The entries of a subtree with their paths, the entry at `path` first, in
the order `filepath.Walk` visits them. -/
def visits (path : Path) : Node → List (Path × Node)
  | .dir es => (path, .dir es) :: below path es
  | .file d => [(path, .file d)]
  | .link t => [(path, .link t)]
/-- The entries at any depth below the directory at `path` with listing `es`. -/
def below (path : Path) : List (String × Node) → List (Path × Node)
  | [] => []
  | (name, x) :: rest => visits (path ++ [name]) x ++ below path rest
end

/-- The listing of the directory reached from the listing `es` by the
components of a path, every component being a directory (no symbolic link). -/
def dirAt : List (String × Node) → Path → Option (List (String × Node))
  | es, [] => some es
  | es, c :: cs =>
    match lookup c es with
    | some (.dir sub) => dirAt sub cs
    | _ => none

/-- No directory listed in `es` contains a directory. -/
def Flat (es : List (String × Node)) : Prop :=
  ∀ n cs, (n, Node.dir cs) ∈ es → ∀ m y, (m, y) ∈ cs → y.isDir = false

/-- The subtree below `es` holds a non-directory entry whose name contains ".pub". -/
def holdsPublic (path : Path) (es : List (String × Node)) : Prop :=
  ∃ q y, (q, y) ∈ below path es ∧ y.isDir = false ∧ strContains (baseName q) ".pub" = true

/-- The subtree below `es` holds a non-directory entry whose name does not contain ".pub". -/
def holdsPrivate (path : Path) (es : List (String × Node)) : Prop :=
  ∃ q y, (q, y) ∈ below path es ∧ y.isDir = false ∧ strContains (baseName q) ".pub" = false

/-- The mapping has at most one alias whose key has `IsDefault` set. -/
def atMostOneDefault (keys : KeyMap) : Prop :=
  ∀ a b ka kb, keys.get a = some ka → keys.get b = some kb →
    ka.IsDefault = true → kb.IsDefault = true → a = b

/-! ## States used as examples -/

/-- The home directory `/home/u`. -/
def homeU : Path := ["home", "u"]

/-- The state whose only entries are `/home/u/.skm` with listing `skm` and
`/home/u/.ssh` with listing `ssh`. -/
def mkFS (skm ssh : List (String × Node)) : FS :=
  ⟨[("home", .dir [("u", .dir [(".skm", .dir skm), (".ssh", .dir ssh)])])]⟩

/-- An alias directory holding the two files `priv` and `pub`. -/
def pair (priv pub : String) : Node :=
  .dir [(priv, .file "private key"), (pub, .file "public key")]

/-! ## The two closures as pure steps -/

/-- The value of `key` before the walk of `loadSingleKey`. -/
def emptyKey : SSHKey :=
  { PublicKey := none, PrivateKey := none, IsDefault := false }

/-- What the closure of `loadSingleKey` does to `key` at a visited entry, when
`parsePath` of the default-identity location returns `target`. -/
def scanStep (target : PathStr) (keyPath : Path) (key : SSHKey) (v : Path × Node) : SSHKey :=
  if v.1 = keyPath then key
  else if v.2.isDir then key
  else if strContains (baseName v.1) ".pub" then { key with PublicKey := some v.1 }
  else if some v.1 = target then { key with PrivateKey := some v.1, IsDefault := true }
  else { key with PrivateKey := some v.1 }

/-- The last statement of `loadSingleKey`: the key, when both paths are set. -/
def finish (key : SSHKey) : Option SSHKey :=
  if key.PublicKey ≠ none ∧ key.PrivateKey ≠ none then some key else none

/-- What the closure of `loadSSHKeys` does to `keys` at a visited entry. -/
def addKey (home : Path) (fs : FS) (keys : KeyMap) (v : Path × Node) : KeyMap :=
  if v.1 = storePath home then keys
  else if v.2.isDir then
    match loadSingleKey home fs v.1 with
    | .ret (some key) => keys.set (baseName v.1) key
    | _ => keys
  else keys

/-- In the state `fs`, `home/.ssh` is a directory with listing `es`, reached
without following a symbolic link, and `lstat` of the store root gives `r`. -/
def Stage (home : Path) (r : Except Errno (Path × Node)) (fs : FS)
    (es : List (String × Node)) : Prop :=
  dirAt fs.root (sshPath home) = some es ∧ lstatNode fs (storePath home) = r

/-- No entry of the listing is a directory. -/
def plain (cs : List (String × Node)) : Bool :=
  cs.all (fun c => !c.2.isDir)

/-- The store is flat: no directory listed in `ss` contains a directory. -/
def flat (ss : List (String × Node)) : Bool :=
  ss.all (fun e =>
    match e.2 with
    | .dir cs => plain cs
    | _ => true)

/-- The store of the examples that holds the one alias `name`, a directory
with the files `id_rsa` and `id_rsa.pub`. -/
def oneAlias (name : String) : List (String × Node) :=
  [(name, pair "id_rsa" "id_rsa.pub")]

/-- `/home/u/.skm/<alias>/<file>`. -/
def inStore (aliasName file : String) : Path :=
  ["home", "u", ".skm", aliasName, file]

/-- Alias `B` is stored; the default-identity links point at the files of an
alias `A` that is not in the store. -/
def fsDangling : FS :=
  mkFS (oneAlias "B")
    [("id_rsa", .link (inStore "A" "id_rsa")), ("id_rsa.pub", .link (inStore "A" "id_rsa.pub"))]

/-- Alias `A` holds a key pair under other names than `id_rsa`, `id_rsa.pub`. -/
def fsOtherNames : FS :=
  mkFS [("A", pair "id_ed25519" "id_ed25519.pub")] []

/-- The key pair lies in a directory `sub` inside the directory `A`. -/
def fsNested : FS :=
  mkFS [("A", .dir [("sub", pair "id_rsa" "id_rsa.pub")])] []

/-- The nested key pair, with the default-identity link pointing at it. -/
def fsNestedActive : FS :=
  mkFS [("A", .dir [("sub", pair "id_rsa" "id_rsa.pub")])]
    [("id_rsa", .link ["home", "u", ".skm", "A", "sub", "id_rsa"])]

/-- Alias `A` holds a third file next to its key pair and is the active one. -/
def fsThreeFiles : FS :=
  mkFS [("A", .dir [("id_rsa", .file "private key"), ("id_rsa.pub", .file "public key"),
      ("notes.txt", .file "notes")])]
    [("id_rsa", .link (inStore "A" "id_rsa"))]

/-- Alias `A` holds `id_rsa` and a public key called `key.pub`. -/
def fsKeyPub : FS :=
  mkFS [("A", .dir [("id_rsa", .file "private key"), ("key.pub", .file "public key")])] []

/-- The default-identity private-key entry is a link to the default-identity
public-key location, where there is nothing. -/
def fsCrossed : FS :=
  mkFS (oneAlias "a") [("id_rsa", .link ["home", "u", ".ssh", "id_rsa.pub"])]

/-- Alias `A` holds a private and a public key, alias `B` a private key only. -/
def fsAB : FS :=
  mkFS [("A", pair "id_rsa" "id_rsa.pub"), ("B", .dir [("id_rsa", .file "private key")])] []

/-- Aliases `A` and `B` are stored and `A` is the active one. -/
def fsSwitch : FS :=
  mkFS [("A", pair "id_rsa" "id_rsa.pub"), ("B", pair "id_rsa" "id_rsa.pub")]
    [("id_rsa", .link (inStore "A" "id_rsa")), ("id_rsa.pub", .link (inStore "A" "id_rsa.pub"))]

/-! ## Proofs

### The path resolver, the confirmation and the backup name -/

theorem parsePath_eq (fs : FS) (p : Path) :
    parsePath fs p =
      match lstatNode fs p with
      | .error _ => .ret none
      | .ok (_, .link t) => .ret (some t)
      | .ok _ => .ret (some p) := by
  unfold parsePath Lstat Readlink
  cases h : lstatNode fs p with
  | error e => simp
  | ok v =>
    obtain ⟨rp, n⟩ := v
    cases n <;> simp [infoOf, Node.isLink]

theorem parsePath_ret (fs : FS) (p : Path) : ∃ t, parsePath fs p = .ret t := by
  rw [parsePath_eq]
  split <;> exact ⟨_, rfl⟩

/-- C7: with any answer other than the exact token "y", `deleteKey` returns the
state it was given, unchanged, and does not end the process. -/
theorem deleteKey_decline (home : Path) (fs : FS) (aliasName : String) (key : SSHKey)
    (input : String) (h : input ≠ "y") :
    deleteKey home fs aliasName key input = .ret fs := by
  obtain ⟨t, ht⟩ := parsePath_ret fs (sshPath home ++ [privateKey])
  simp [deleteKey, ht, h]

theorem digitChar_isDigit : ∀ n, n < 10 → (Nat.digitChar n).isDigit = true := by decide

theorem digitsRev_one (f x : Nat) (hx : x < 10) : digitsRev (f + 1) x = [Nat.digitChar x] := by
  simp [digitsRev, hx]

theorem digitsRev_step (f x : Nat) (hx : 10 ≤ x) :
    digitsRev (f + 1) x = Nat.digitChar (x % 10) :: digitsRev f (x / 10) := by
  have : ¬ x < 10 := by omega
  simp [digitsRev, this]

theorem padNat_two (x : Nat) (hx : x < 100) :
    padNat x 2 = [Nat.digitChar (x / 10), Nat.digitChar (x % 10)] := by
  unfold padNat
  by_cases h : x < 10
  · have h0 : x / 10 = 0 := by omega
    have h1 : x % 10 = x := by omega
    rw [digitsRev_one x x h, h0, h1]
    rfl
  · obtain ⟨f, hf⟩ : ∃ f, x = f + 1 := ⟨x - 1, by omega⟩
    have hq : x / 10 < 10 := by omega
    rw [show x + 1 = (f + 1) + 1 by omega, digitsRev_step _ x (by omega), digitsRev_one f _ hq]
    rfl

theorem padNat_four (x : Nat) (hx : x < 10000) :
    padNat x 4 = [Nat.digitChar (x / 1000), Nat.digitChar (x / 100 % 10),
      Nat.digitChar (x / 10 % 10), Nat.digitChar (x % 10)] := by
  unfold padNat
  by_cases h1 : x < 10
  · have e1 : x / 1000 = 0 := by omega
    have e2 : x / 100 % 10 = 0 := by omega
    have e3 : x / 10 % 10 = 0 := by omega
    have e4 : x % 10 = x := by omega
    rw [digitsRev_one x x h1, e1, e2, e3, e4]
    rfl
  · by_cases h2 : x < 100
    · obtain ⟨f, hf⟩ : ∃ f, x = f + 1 := ⟨x - 1, by omega⟩
      have e1 : x / 1000 = 0 := by omega
      have e2 : x / 100 % 10 = 0 := by omega
      have e3 : x / 10 % 10 = x / 10 := by omega
      rw [show x + 1 = (f + 1) + 1 by omega, digitsRev_step _ x (by omega),
        digitsRev_one f _ (by omega), e1, e2, e3]
      rfl
    · by_cases h3 : x < 1000
      · obtain ⟨f, hf⟩ : ∃ f, x = f + 2 := ⟨x - 2, by omega⟩
        have e1 : x / 1000 = 0 := by omega
        have e2 : x / 100 % 10 = x / 10 / 10 := by omega
        have e3 : x / 10 % 10 = x / 10 % 10 := rfl
        rw [show x + 1 = ((f + 1) + 1) + 1 by omega, digitsRev_step _ x (by omega),
          digitsRev_step _ (x / 10) (by omega), digitsRev_one f _ (by omega), e1, e2]
        rfl
      · obtain ⟨f, hf⟩ : ∃ f, x = f + 3 := ⟨x - 3, by omega⟩
        have e1 : x / 1000 = x / 10 / 10 / 10 := by omega
        have e2 : x / 100 % 10 = x / 10 / 10 % 10 := by omega
        rw [show x + 1 = (((f + 1) + 1) + 1) + 1 by omega, digitsRev_step _ x (by omega),
          digitsRev_step _ (x / 10) (by omega), digitsRev_step _ (x / 10 / 10) (by omega),
          digitsRev_one f _ (by omega), e1, e2]
        rfl

theorem appendInt_ofNat (x w : Nat) : appendInt (x : Int) w = padNat x w := by
  unfold appendInt
  have : ¬ ((x : Int) < 0) := by omega
  rw [if_neg this]
  rfl

theorem formatStamp_eq (now : LocalTime) (hv : now.valid) (hy0 : 0 ≤ now.year)
    (hy : now.year ≤ 9999) :
    formatStamp now = (stampDigits now.year.toNat now).map Nat.digitChar := by
  obtain ⟨h1, h2, h3, h4, h5, h6, h7⟩ := hv
  obtain ⟨y, hyy⟩ : ∃ y : Nat, now.year = (y : Int) := ⟨now.year.toNat, by omega⟩
  have hy' : y < 10000 := by omega
  unfold formatStamp stampDigits
  rw [hyy, appendInt_ofNat, appendInt_ofNat, appendInt_ofNat, appendInt_ofNat, appendInt_ofNat,
    appendInt_ofNat, padNat_four y hy', padNat_two _ (by omega), padNat_two _ (by omega),
    padNat_two _ (by omega), padNat_two _ (by omega), padNat_two _ (by omega)]
  simp

/-- C10 (as amended): for a local time whose year is between 0 and 9999, the
name is "skm-", then the fourteen decimal digits of the year (four), the
month, the day, the hour, the minute and the second (two each, padded with
zeros), then ".tar.gz"; it is a function of the time alone. -/
theorem getBakFileName_format (now : LocalTime) (hv : now.valid) (hy0 : 0 ≤ now.year)
    (hy : now.year ≤ 9999) :
    getBakFileName now =
        "skm-" ++ String.mk ((stampDigits now.year.toNat now).map Nat.digitChar) ++ ".tar.gz" ∧
      (stampDigits now.year.toNat now).length = 14 ∧
      (∀ d, d ∈ stampDigits now.year.toNat now → d < 10) ∧
      ∃ ds : List Char, ds.length = 14 ∧ (∀ c, c ∈ ds → c.isDigit = true) ∧
        getBakFileName now = "skm-" ++ String.mk ds ++ ".tar.gz" := by
  have hfmt := formatStamp_eq now hv hy0 hy
  have hname : getBakFileName now =
      "skm-" ++ String.mk ((stampDigits now.year.toNat now).map Nat.digitChar) ++ ".tar.gz" := by
    unfold getBakFileName
    rw [hfmt]
  have hlt : ∀ d, d ∈ stampDigits now.year.toNat now → d < 10 := by
    obtain ⟨h1, h2, h3, h4, h5, h6, h7⟩ := hv
    intro d hd
    simp only [stampDigits, List.mem_cons, List.mem_singleton, List.not_mem_nil, or_false] at hd
    omega
  refine ⟨hname, rfl, hlt, (stampDigits now.year.toNat now).map Nat.digitChar, ?_, ?_, hname⟩
  · simp [stampDigits]
  · intro c hc
    obtain ⟨d, hd, rfl⟩ := List.mem_map.1 hc
    exact digitChar_isDigit d (hlt d hd)

/-- C10, witness: 2024-01-15 09:30:00 gives "skm-20240115093000.tar.gz". -/
theorem getBakFileName_example :
    getBakFileName ⟨2024, 1, 15, 9, 30, 0⟩ = "skm-20240115093000.tar.gz" ∧
    stampDigits 2024 ⟨2024, 1, 15, 9, 30, 0⟩ = [2, 0, 2, 4, 0, 1, 1, 5, 0, 9, 3, 0, 0, 0] ∧
    (getBakFileName ⟨2024, 1, 15, 9, 30, 0⟩ =
        "skm-" ++ String.mk ((stampDigits (2024 : Int).toNat ⟨2024, 1, 15, 9, 30, 0⟩).map
          Nat.digitChar) ++ ".tar.gz" ∧
      (stampDigits (2024 : Int).toNat ⟨2024, 1, 15, 9, 30, 0⟩).length = 14 ∧
      (∀ d, d ∈ stampDigits (2024 : Int).toNat ⟨2024, 1, 15, 9, 30, 0⟩ → d < 10) ∧
      ∃ ds : List Char, ds.length = 14 ∧ (∀ c, c ∈ ds → c.isDigit = true) ∧
        getBakFileName ⟨2024, 1, 15, 9, 30, 0⟩ = "skm-" ++ String.mk ds ++ ".tar.gz") :=
  ⟨by decide, by decide,
    getBakFileName_format ⟨2024, 1, 15, 9, 30, 0⟩ (by decide) (by decide) (by decide)⟩

/-- C10 (counterexample): in the year 10000 the name has fifteen digits, and
in the year -1 it has a minus sign. -/
theorem getBakFileName_year10000 :
    (⟨10000, 1, 1, 0, 0, 0⟩ : LocalTime).valid ∧
      getBakFileName ⟨10000, 1, 1, 0, 0, 0⟩ = "skm-100000101000000.tar.gz" ∧
      getBakFileName ⟨-1, 1, 1, 0, 0, 0⟩ = "skm--00010101000000.tar.gz" ∧
      (¬ ∃ ds : List Char, ds.length = 14 ∧ (∀ c, c ∈ ds → c.isDigit = true) ∧
        getBakFileName ⟨10000, 1, 1, 0, 0, 0⟩ = "skm-" ++ String.mk ds ++ ".tar.gz") ∧
      ¬ ∃ ds : List Char, ds.length = 14 ∧ (∀ c, c ∈ ds → c.isDigit = true) ∧
        getBakFileName ⟨-1, 1, 1, 0, 0, 0⟩ = "skm-" ++ String.mk ds ++ ".tar.gz" := by
  have h4 : "skm-".length = 4 := by decide
  have h7 : ".tar.gz".length = 7 := by decide
  refine ⟨by decide, by decide, by decide, ?_, ?_⟩
  · rintro ⟨ds, hlen, -, heq⟩
    have h := congrArg String.length heq
    have h26 : (getBakFileName ⟨10000, 1, 1, 0, 0, 0⟩).length = 26 := by decide
    rw [h26] at h
    simp [String.length_append, hlen] at h
    omega
  · rintro ⟨ds, hlen, -, heq⟩
    have h := congrArg String.length heq
    have h26 : (getBakFileName ⟨-1, 1, 1, 0, 0, 0⟩).length = 26 := by decide
    rw [h26] at h
    simp [String.length_append, hlen] at h
    omega

/-! ### Listings -/

theorem lookup_mem {name : String} {x : Node} :
    ∀ {es : List (String × Node)}, lookup name es = some x → (name, x) ∈ es := by
  intro es
  induction es with
  | nil => intro h; simp [lookup] at h
  | cons e rest ih =>
    obtain ⟨n, y⟩ := e
    intro h
    unfold lookup at h
    split at h
    · rename_i hn
      simp at h
      simp [hn, h]
    · exact List.mem_cons_of_mem _ (ih h)

theorem chars_lt_irrefl : ∀ l : List Char, ¬ l < l := by
  intro l
  induction l with
  | nil => intro h; cases h
  | cons c cs ih =>
    intro h
    cases h with
    | cons h => exact ih h
    | rel h => exact absurd h (Nat.lt_irrefl _)

theorem lookup_of_mem {name : String} {x : Node} :
    ∀ {es : List (String × Node)}, namesSorted es → (name, x) ∈ es → lookup name es = some x := by
  intro es
  induction es with
  | nil => intro _ h; simp at h
  | cons e rest ih =>
    obtain ⟨n, y⟩ := e
    intro hs hm
    unfold namesSorted at hs
    rw [List.pairwise_cons] at hs
    rcases List.mem_cons.1 hm with h | h
    · cases h
      simp [lookup]
    · have hlt := hs.1 _ h
      have hne : n ≠ name := by
        intro he
        subst he
        exact chars_lt_irrefl _ hlt
      simp [lookup, hne]
      exact ih hs.2 h

theorem namesSorted_tail {e : String × Node} {rest : List (String × Node)}
    (h : namesSorted (e :: rest)) : namesSorted rest := by
  unfold namesSorted at h ⊢
  exact (List.pairwise_cons.1 h).2
/-! ### Path resolution -/

theorem descend_append_dir {n : String} :
    ∀ (p : Path) (cur : Node) (acc rp : Path) (es : List (String × Node)),
      descend false cur acc p = .found rp (.dir es) →
      descend false cur acc (p ++ [n]) =
        match lookup n es with
        | none => .fail .ENOENT
        | some x => .found (rp ++ [n]) x := by
  intro p
  induction p with
  | nil =>
    intro cur acc rp es h
    simp only [descend] at h
    cases h
    simp only [List.nil_append, descend]
    cases hl : lookup n es with
    | none => rfl
    | some x => cases x <;> simp [descend]
  | cons c rest ih =>
    intro cur acc rp es h
    cases cur with
    | file d => simp [descend] at h
    | link t => simp [descend] at h
    | dir es0 =>
      simp only [List.cons_append, descend] at h ⊢
      cases hl : lookup c es0 with
      | none => simp [hl] at h
      | some x =>
        cases x with
        | link t =>
          simp only [hl] at h
          split at h <;> cases h
        | file d =>
          simp only [hl] at h ⊢
          exact ih _ _ _ _ h
        | dir sub =>
          simp only [hl] at h ⊢
          exact ih _ _ _ _ h

theorem descend_append_jump {n : String} :
    ∀ (p : Path) (cur : Node) (acc q : Path),
      descend false cur acc p = .jump q →
      descend false cur acc (p ++ [n]) = .jump (q ++ [n]) := by
  intro p
  induction p with
  | nil => intro cur acc q h; simp [descend] at h
  | cons c rest ih =>
    intro cur acc q h
    cases cur with
    | file d => simp [descend] at h
    | link t => simp [descend] at h
    | dir es0 =>
      simp only [List.cons_append, descend] at h ⊢
      cases hl : lookup c es0 with
      | none => simp [hl] at h
      | some x =>
        cases x with
        | link t =>
          simp only [hl] at h ⊢
          cases rest with
          | nil => simp at h
          | cons r rs =>
            simp at h
            simp [h.symm]
        | file d =>
          simp only [hl] at h ⊢
          exact ih _ _ _ h
        | dir sub =>
          simp only [hl] at h ⊢
          exact ih _ _ _ h

theorem namei_append (fs : FS) {n : String} :
    ∀ (k : Nat) (p rp : Path) (es : List (String × Node)),
      namei fs false k p = .ok (rp, .dir es) →
      namei fs false k (p ++ [n]) =
        match lookup n es with
        | none => .error .ENOENT
        | some x => .ok (rp ++ [n], x) := by
  intro k
  induction k with
  | zero =>
    intro p rp es h
    simp only [namei] at h ⊢
    cases hd : descend false (.dir fs.root) [] p with
    | found r m =>
      simp only [hd] at h
      cases h
      rw [descend_append_dir p _ _ _ _ hd]
      cases lookup n es <;> rfl
    | jump q => simp [hd] at h
    | fail e => simp [hd] at h
  | succ k ih =>
    intro p rp es h
    simp only [namei] at h ⊢
    cases hd : descend false (.dir fs.root) [] p with
    | found r m =>
      simp only [hd] at h
      cases h
      rw [descend_append_dir p _ _ _ _ hd]
      cases lookup n es <;> rfl
    | jump q =>
      simp only [hd] at h
      rw [descend_append_jump p _ _ _ hd]
      exact ih _ _ _ h
    | fail e => simp [hd] at h

/-- The entry `n` of a directory that `lstat` finds at `p` is what `lstat`
finds at `p/n`. -/
theorem lstatNode_child (fs : FS) {p rp : Path} {es : List (String × Node)} {n : String}
    {x : Node} (h : lstatNode fs p = .ok (rp, .dir es)) (hl : lookup n es = some x) :
    lstatNode fs (p ++ [n]) = .ok (rp ++ [n], x) := by
  unfold lstatNode at h ⊢
  rw [namei_append fs _ _ _ _ h, hl]

theorem lstatNode_child_none (fs : FS) {p rp : Path} {es : List (String × Node)} {n : String}
    (h : lstatNode fs p = .ok (rp, .dir es)) (hl : lookup n es = none) :
    lstatNode fs (p ++ [n]) = .error .ENOENT := by
  unfold lstatNode at h ⊢
  rw [namei_append fs _ _ _ _ h, hl]

theorem descend_dirAt (follow : Bool) :
    ∀ (p : Path) (es0 es : List (String × Node)) (acc : Path),
      dirAt es0 p = some es → descend follow (.dir es0) acc p = .found (acc ++ p) (.dir es) := by
  intro p
  induction p with
  | nil => intro es0 es acc h; simp [dirAt] at h; simp [descend, h]
  | cons c rest ih =>
    intro es0 es acc h
    simp only [dirAt] at h
    simp only [descend]
    cases hl : lookup c es0 with
    | none => simp [hl] at h
    | some x =>
      cases x with
      | file d => simp [hl] at h
      | link t => simp [hl] at h
      | dir sub =>
        simp only [hl] at h ⊢
        rw [ih _ _ _ h]
        simp

theorem namei_dirAt (fs : FS) (follow : Bool) (k : Nat) {p : Path} {es : List (String × Node)}
    (h : dirAt fs.root p = some es) : namei fs follow k p = .ok (p, .dir es) := by
  cases k <;> simp [namei, descend_dirAt follow p _ _ [] h]
/-! ### The walk as a fold over the visited entries -/

mutual
theorem walk_eq_foldl {σ : Type} (fn : WalkFunc σ) (g : σ → Path × Node → σ)
    (hfn : ∀ p n s, fn p (some (infoOf (baseName p) n)) none s = .ret (g s (p, n), none)) :
    ∀ (n : Node) (path : Path) (s : σ),
      walk fn path n s = .ret ((visits path n).foldl g s, none)
  | .dir es, path, s => by
    rw [walk, hfn, visits]
    simp only [List.foldl_cons]
    exact walkEntries_eq_foldl fn g hfn es path _
  | .file d, path, s => by
    rw [walk, hfn, visits]
    rfl
  | .link t, path, s => by
    rw [walk, hfn, visits]
    rfl
theorem walkEntries_eq_foldl {σ : Type} (fn : WalkFunc σ) (g : σ → Path × Node → σ)
    (hfn : ∀ p n s, fn p (some (infoOf (baseName p) n)) none s = .ret (g s (p, n), none)) :
    ∀ (es : List (String × Node)) (path : Path) (s : σ),
      walkEntries fn path es s = .ret ((below path es).foldl g s, none)
  | [], path, s => by
    rw [walkEntries, below]
    rfl
  | (name, x) :: rest, path, s => by
    rw [walkEntries, walk_eq_foldl fn g hfn x, below, List.foldl_append]
    exact walkEntries_eq_foldl fn g hfn rest path _
end

theorem mem_below {path q : Path} {y : Node} :
    ∀ {es : List (String × Node)},
      (q, y) ∈ below path es ↔ ∃ n x, (n, x) ∈ es ∧ (q, y) ∈ visits (path ++ [n]) x := by
  intro es
  induction es with
  | nil => simp [below]
  | cons e rest ih =>
    obtain ⟨name, x⟩ := e
    rw [below, List.mem_append, ih]
    constructor
    · rintro (h | ⟨n, x', hm, hv⟩)
      · exact ⟨name, x, List.mem_cons_self _ _, h⟩
      · exact ⟨n, x', List.mem_cons_of_mem _ hm, hv⟩
    · rintro ⟨n, x', hm, hv⟩
      rcases List.mem_cons.1 hm with h | h
      · cases h
        exact Or.inl hv
      · exact Or.inr ⟨n, x', h, hv⟩

theorem mem_visits {path q : Path} {y : Node} {n : Node} :
    (q, y) ∈ visits path n ↔
      (q = path ∧ y = n) ∨ ∃ es, n = .dir es ∧ (q, y) ∈ below path es := by
  cases n with
  | file d => simp [visits]
  | link t => simp [visits]
  | dir es => simp [visits]

mutual
theorem visits_path : ∀ (n : Node) (path q : Path) (y : Node),
    (q, y) ∈ visits path n → ∃ r, q = path ++ r
  | .dir es, path, q, y, h => by
    rw [visits, List.mem_cons] at h
    rcases h with h | h
    · exact ⟨[], by simp [(Prod.mk.inj h).1]⟩
    · obtain ⟨c, r, hr⟩ := below_path es path q y h
      exact ⟨c :: r, hr⟩
  | .file d, path, q, y, h => by
    simp [visits] at h
    exact ⟨[], by simp [h.1]⟩
  | .link t, path, q, y, h => by
    simp [visits] at h
    exact ⟨[], by simp [h.1]⟩
theorem below_path : ∀ (es : List (String × Node)) (path q : Path) (y : Node),
    (q, y) ∈ below path es → ∃ c r, q = path ++ c :: r
  | [], path, q, y, h => by simp [below] at h
  | (name, x) :: rest, path, q, y, h => by
    rw [below, List.mem_append] at h
    rcases h with h | h
    · obtain ⟨r, hr⟩ := visits_path x _ q y h
      exact ⟨name, r, by simp [hr]⟩
    · exact below_path rest path q y h
end

theorem below_ne {path q : Path} {y : Node} {es : List (String × Node)}
    (h : (q, y) ∈ below path es) : q ≠ path := by
  obtain ⟨c, r, hr⟩ := below_path es path q y h
  intro he
  rw [he] at hr
  have := congrArg List.length hr
  simp at this

mutual
theorem visits_lstat (fs : FS) : ∀ (n : Node) (path rp q : Path) (y : Node),
    lstatNode fs path = .ok (rp, n) → n.wf = true → (q, y) ∈ visits path n →
    ∃ rq, lstatNode fs q = .ok (rq, y)
  | .dir es, path, rp, q, y, hl, hw, h => by
    rw [visits, List.mem_cons] at h
    rcases h with h | h
    · cases h
      exact ⟨rp, hl⟩
    · rw [Node.wf, Bool.and_eq_true] at hw
      exact below_lstat fs es es path rp q y hl (of_decide_eq_true hw.1) (fun _ h => h) hw.2 h
  | .file d, path, rp, q, y, hl, _, h => by
    simp [visits] at h
    rw [h.1, h.2]
    exact ⟨rp, hl⟩
  | .link t, path, rp, q, y, hl, _, h => by
    simp [visits] at h
    rw [h.1, h.2]
    exact ⟨rp, hl⟩
theorem below_lstat (fs : FS) : ∀ (sub es : List (String × Node)) (path rp q : Path) (y : Node),
    lstatNode fs path = .ok (rp, .dir es) → namesSorted es → (∀ e, e ∈ sub → e ∈ es) →
    wfEntries sub = true → (q, y) ∈ below path sub →
    ∃ rq, lstatNode fs q = .ok (rq, y)
  | [], es, path, rp, q, y, _, _, _, _, h => by simp [below] at h
  | (name, x) :: rest, es, path, rp, q, y, hl, hs, hsub, hw, h => by
    rw [wfEntries, Bool.and_eq_true] at hw
    rw [below, List.mem_append] at h
    rcases h with h | h
    · have hx : lstatNode fs (path ++ [name]) = .ok (rp ++ [name], x) :=
        lstatNode_child fs hl (lookup_of_mem hs (hsub _ (List.mem_cons_self _ _)))
      exact visits_lstat fs x _ _ q y hx hw.1 h
    · exact below_lstat fs rest es path rp q y hl hs
        (fun e he => hsub e (List.mem_cons_of_mem _ he)) hw.2 h
end
/-! ### loadSingleKey -/

theorem loadSingleKeyFn_ret (home : Path) (fs : FS) (keyPath : Path) {target : PathStr}
    (ht : parsePath fs (sshPath home ++ [privateKey]) = .ret target) (p : Path) (n : Node)
    (s : SSHKey) :
    loadSingleKeyFn home fs keyPath p (some (infoOf (baseName p) n)) none s =
      .ret (scanStep target keyPath s (p, n), none) := by
  simp only [loadSingleKeyFn, scanStep, ht, infoOf]
  split_ifs <;> rfl

theorem scanStep_root (target : PathStr) (p : Path) (k : SSHKey) (n : Node) :
    scanStep target p k (p, n) = k := by
  simp [scanStep]

theorem loadSingleKey_dir (home : Path) (fs : FS) {p rp : Path} {es : List (String × Node)}
    {target : PathStr} (ht : parsePath fs (sshPath home ++ [privateKey]) = .ret target)
    (hl : lstatNode fs p = .ok (rp, .dir es)) :
    loadSingleKey home fs p = .ret (finish ((below p es).foldl (scanStep target p) emptyKey)) := by
  unfold loadSingleKey Walk
  rw [hl]
  simp only
  rw [walk_eq_foldl _ _ (loadSingleKeyFn_ret home fs p ht), visits, List.foldl_cons]
  rw [scanStep_root]
  change (if (List.foldl (scanStep target p) emptyKey (below p es)).PublicKey ≠ none ∧
      (List.foldl (scanStep target p) emptyKey (below p es)).PrivateKey ≠ none
    then Outcome.ret (some (List.foldl (scanStep target p) emptyKey (below p es)))
    else Outcome.ret none) = _
  unfold finish
  split_ifs <;> rfl

theorem loadSingleKey_ret (home : Path) (fs : FS) (p : Path) :
    ∃ v, loadSingleKey home fs p = .ret v := by
  obtain ⟨target, ht⟩ := parsePath_ret fs (sshPath home ++ [privateKey])
  unfold loadSingleKey Walk
  cases hl : lstatNode fs p with
  | error e =>
    simp only [loadSingleKeyFn]
    exact ⟨_, rfl⟩
  | ok v =>
    obtain ⟨rp, n⟩ := v
    simp only
    rw [walk_eq_foldl _ _ (loadSingleKeyFn_ret home fs p ht)]
    simp only
    split_ifs <;> exact ⟨_, rfl⟩

theorem scan_public (target : PathStr) (kp : Path) :
    ∀ (l : List (Path × Node)) (k : SSHKey),
      (l.foldl (scanStep target kp) k).PublicKey ≠ none ↔
        k.PublicKey ≠ none ∨ ∃ v, v ∈ l ∧ v.1 ≠ kp ∧ v.2.isDir = false ∧
          strContains (baseName v.1) ".pub" = true := by
  intro l
  induction l with
  | nil =>
    intro k
    constructor
    · intro h
      exact Or.inl h
    · rintro (h | ⟨v, hv, _⟩)
      · exact h
      · exact absurd hv (List.not_mem_nil _)
  | cons v rest ih =>
    intro k
    rw [List.foldl_cons, ih]
    constructor
    · rintro (h | ⟨w, hw, h⟩)
      · unfold scanStep at h
        split_ifs at h with h1 h2 h3 h4
        · exact Or.inl h
        · exact Or.inl h
        · exact Or.inr ⟨v, List.mem_cons_self _ _, h1, by simpa using h2, h3⟩
        · exact Or.inl h
        · exact Or.inl h
      · exact Or.inr ⟨w, List.mem_cons_of_mem _ hw, h⟩
    · rintro (h | ⟨w, hw, h⟩)
      · left
        unfold scanStep
        split_ifs <;> simp [h]
      · rcases List.mem_cons.1 hw with he | he
        · subst he
          left
          unfold scanStep
          simp [h.1, h.2.1, h.2.2]
        · exact Or.inr ⟨w, he, h⟩

theorem scan_private (target : PathStr) (kp : Path) :
    ∀ (l : List (Path × Node)) (k : SSHKey),
      (l.foldl (scanStep target kp) k).PrivateKey ≠ none ↔
        k.PrivateKey ≠ none ∨ ∃ v, v ∈ l ∧ v.1 ≠ kp ∧ v.2.isDir = false ∧
          strContains (baseName v.1) ".pub" = false := by
  intro l
  induction l with
  | nil =>
    intro k
    constructor
    · intro h
      exact Or.inl h
    · rintro (h | ⟨v, hv, _⟩)
      · exact h
      · exact absurd hv (List.not_mem_nil _)
  | cons v rest ih =>
    intro k
    rw [List.foldl_cons, ih]
    constructor
    · rintro (h | ⟨w, hw, h⟩)
      · unfold scanStep at h
        split_ifs at h with h1 h2 h3 h4
        · exact Or.inl h
        · exact Or.inl h
        · exact Or.inl h
        · exact Or.inr ⟨v, List.mem_cons_self _ _, h1, by simpa using h2, by simpa using h3⟩
        · exact Or.inr ⟨v, List.mem_cons_self _ _, h1, by simpa using h2, by simpa using h3⟩
      · exact Or.inr ⟨w, List.mem_cons_of_mem _ hw, h⟩
    · rintro (h | ⟨w, hw, h⟩)
      · left
        unfold scanStep
        split_ifs <;> simp [h]
      · rcases List.mem_cons.1 hw with he | he
        · subst he
          left
          unfold scanStep
          rw [if_neg h.1, h.2.1, h.2.2]
          simp only [Bool.false_eq_true, if_false]
          split_ifs <;> simp
        · exact Or.inr ⟨w, he, h⟩

theorem scan_default (target : PathStr) (kp : Path) :
    ∀ (l : List (Path × Node)) (k : SSHKey),
      (l.foldl (scanStep target kp) k).IsDefault = true ↔
        k.IsDefault = true ∨ ∃ v, v ∈ l ∧ v.1 ≠ kp ∧ v.2.isDir = false ∧
          strContains (baseName v.1) ".pub" = false ∧ some v.1 = target := by
  intro l
  induction l with
  | nil =>
    intro k
    constructor
    · intro h
      exact Or.inl h
    · rintro (h | ⟨v, hv, _⟩)
      · exact h
      · exact absurd hv (List.not_mem_nil _)
  | cons v rest ih =>
    intro k
    rw [List.foldl_cons, ih]
    constructor
    · rintro (h | ⟨w, hw, h⟩)
      · unfold scanStep at h
        split_ifs at h with h1 h2 h3 h4
        · exact Or.inl h
        · exact Or.inl h
        · exact Or.inl h
        · exact Or.inr ⟨v, List.mem_cons_self _ _, h1, by simpa using h2, by simpa using h3, h4⟩
        · exact Or.inl h
      · exact Or.inr ⟨w, List.mem_cons_of_mem _ hw, h⟩
    · rintro (h | ⟨w, hw, h⟩)
      · left
        unfold scanStep
        split_ifs <;> simp [h]
      · rcases List.mem_cons.1 hw with he | he
        · subst he
          left
          unfold scanStep
          simp [h.1, h.2.1, h.2.2.1, h.2.2.2]
        · exact Or.inr ⟨w, he, h⟩
/-! ### loadSSHKeys -/

theorem KeyMap.get_filter {k a : String} (h : k ≠ a) :
    ∀ m : KeyMap, KeyMap.get (m.filter (fun e => !decide (e.1 = k))) a = KeyMap.get m a := by
  intro m
  induction m with
  | nil => rfl
  | cons e rest ih =>
    obtain ⟨n, v⟩ := e
    by_cases hn : n = k
    · subst hn
      simp [List.filter, KeyMap.get, h, ih]
    · simp [List.filter, hn, KeyMap.get, ih]

theorem KeyMap.get_set (m : KeyMap) (k a : String) (v : SSHKey) :
    (m.set k v).get a = if k = a then some v else m.get a := by
  unfold KeyMap.set
  by_cases h : k = a
  · simp [KeyMap.get, h]
  · simp [KeyMap.get, h, KeyMap.get_filter h]

theorem loadSSHKeysFn_ret (home : Path) (fs : FS) (p : Path) (n : Node) (s : KeyMap) :
    loadSSHKeysFn home fs p (some (infoOf (baseName p) n)) none s =
      .ret (addKey home fs s (p, n), none) := by
  obtain ⟨v, hv⟩ := loadSingleKey_ret home fs p
  simp only [loadSSHKeysFn, addKey, infoOf, hv]
  split_ifs
  · rfl
  · cases v <;> rfl
  · rfl

theorem loadSSHKeys_dir (home : Path) (fs : FS) {rp : Path} {ss : List (String × Node)}
    (hl : lstatNode fs (storePath home) = .ok (rp, .dir ss)) :
    loadSSHKeys home fs = .ret ((below (storePath home) ss).foldl (addKey home fs) []) := by
  unfold loadSSHKeys Walk
  rw [hl]
  simp only
  rw [walk_eq_foldl _ _ (loadSSHKeysFn_ret home fs), visits, List.foldl_cons]
  have : addKey home fs [] (storePath home, Node.dir ss) = [] := by simp [addKey]
  rw [this]

theorem loadSSHKeys_noDir (home : Path) (fs : FS)
    (hl : ∀ rp ss, lstatNode fs (storePath home) ≠ .ok (rp, .dir ss)) :
    loadSSHKeys home fs = .ret [] := by
  unfold loadSSHKeys Walk
  cases h : lstatNode fs (storePath home) with
  | error e => simp [loadSSHKeysFn]
  | ok v =>
    obtain ⟨rp, n⟩ := v
    simp only
    rw [walk_eq_foldl _ _ (loadSSHKeysFn_ret home fs)]
    cases n with
    | dir ss => exact absurd h (hl _ _)
    | file d => simp [visits, addKey]
    | link t => simp [visits, addKey]

theorem addKey_get (home : Path) (fs : FS) (m : KeyMap) (v : Path × Node) (a : String) :
    (addKey home fs m v).get a =
      if v.1 ≠ storePath home ∧ v.2.isDir = true ∧ baseName v.1 = a then
        match loadSingleKey home fs v.1 with
        | .ret (some k) => some k
        | _ => m.get a
      else m.get a := by
  unfold addKey
  by_cases h1 : v.1 = storePath home
  · simp [h1]
  · by_cases h2 : v.2.isDir = true
    · simp only [h1, h2, if_false, if_true, ne_eq, not_false_eq_true, true_and]
      cases hk : loadSingleKey home fs v.1 with
      | exit c => simp
      | ret o =>
        cases o with
        | none => simp
        | some k =>
          simp only [KeyMap.get_set]
    · simp [h1, h2]

theorem keys_get_some (home : Path) (fs : FS) (a : String) (k : SSHKey) :
    ∀ (l : List (Path × Node)) (m : KeyMap),
      (l.foldl (addKey home fs) m).get a = some k →
      m.get a = some k ∨ ∃ v, v ∈ l ∧ v.1 ≠ storePath home ∧ v.2.isDir = true ∧
        baseName v.1 = a ∧ loadSingleKey home fs v.1 = .ret (some k) := by
  intro l
  induction l with
  | nil => intro m h; exact Or.inl h
  | cons v rest ih =>
    intro m h
    rw [List.foldl_cons] at h
    rcases ih _ h with h' | ⟨w, hw, h'⟩
    · rw [addKey_get] at h'
      split_ifs at h' with hc
      · cases hk : loadSingleKey home fs v.1 with
        | exit c => rw [hk] at h'; exact Or.inl h'
        | ret o =>
          cases o with
          | none => rw [hk] at h'; exact Or.inl h'
          | some k' =>
            rw [hk] at h'
            simp only [Option.some.injEq] at h'
            subst h'
            exact Or.inr ⟨v, List.mem_cons_self _ _, hc.1, hc.2.1, hc.2.2, hk⟩
      · exact Or.inl h'
    · exact Or.inr ⟨w, List.mem_cons_of_mem _ hw, h'⟩

theorem keys_get_isSome (home : Path) (fs : FS) (a : String) :
    ∀ (l : List (Path × Node)) (m : KeyMap),
      ((m.get a).isSome = true ∨ ∃ v, v ∈ l ∧ v.1 ≠ storePath home ∧ v.2.isDir = true ∧
        baseName v.1 = a ∧ ∃ k, loadSingleKey home fs v.1 = .ret (some k)) →
      ((l.foldl (addKey home fs) m).get a).isSome = true := by
  intro l
  induction l with
  | nil =>
    intro m h
    rcases h with h | ⟨v, hv, _⟩
    · exact h
    · exact absurd hv (List.not_mem_nil _)
  | cons v rest ih =>
    intro m h
    rw [List.foldl_cons]
    apply ih
    rcases h with h | ⟨w, hw, h⟩
    · left
      rw [addKey_get]
      split_ifs
      · cases hk : loadSingleKey home fs v.1 with
        | exit c => exact h
        | ret o => cases o <;> simp [h]
      · exact h
    · rcases List.mem_cons.1 hw with he | he
      · subst he
        left
        obtain ⟨h1, h2, h3, k, hk⟩ := h
        rw [addKey_get, if_pos ⟨h1, h2, h3⟩, hk]
        rfl
      · exact Or.inr ⟨w, he, h⟩
/-! ### Discovery -/

theorem baseName_append (p : Path) (n : String) : baseName (p ++ [n]) = n := by
  simp [baseName]

theorem wf_dir {es : List (String × Node)} (h : (Node.dir es).wf = true) :
    namesSorted es ∧ wfEntries es = true := by
  rw [Node.wf, Bool.and_eq_true] at h
  exact ⟨of_decide_eq_true h.1, h.2⟩

/-- Below a well-formed directory that `lstat` finds at `p`, `lstat` finds
every entry at its path. -/
theorem below_lstat_wf (fs : FS) {p rp q : Path} {es : List (String × Node)} {y : Node}
    (hl : lstatNode fs p = .ok (rp, .dir es)) (hw : (Node.dir es).wf = true)
    (h : (q, y) ∈ below p es) : ∃ rq, lstatNode fs q = .ok (rq, y) :=
  below_lstat fs es es p rp q y hl (wf_dir hw).1 (fun _ h => h) (wf_dir hw).2 h

theorem finish_isSome (k : SSHKey) :
    (∃ k', finish k = some k') ↔ k.PublicKey ≠ none ∧ k.PrivateKey ≠ none := by
  unfold finish
  split_ifs with h
  · exact ⟨fun _ => h, fun _ => ⟨k, rfl⟩⟩
  · constructor
    · rintro ⟨k', hk⟩
      cases hk
    · intro h'
      exact absurd h' h

theorem finish_some {k k' : SSHKey} (h : finish k = some k') : k' = k := by
  unfold finish at h
  split_ifs at h
  simp at h
  exact h.symm

theorem loadSingleKey_some_iff (home : Path) (fs : FS) {q rq : Path}
    {cs : List (String × Node)} (hl : lstatNode fs q = .ok (rq, .dir cs)) :
    (∃ k, loadSingleKey home fs q = .ret (some k)) ↔ holdsPublic q cs ∧ holdsPrivate q cs := by
  obtain ⟨target, ht⟩ := parsePath_ret fs (sshPath home ++ [privateKey])
  rw [loadSingleKey_dir home fs ht hl]
  have h1 : (∃ k, Outcome.ret (finish ((below q cs).foldl (scanStep target q) emptyKey)) =
      Outcome.ret (some k)) ↔
      ∃ k, finish ((below q cs).foldl (scanStep target q) emptyKey) = some k := by
    constructor
    · rintro ⟨k, hk⟩
      exact ⟨k, by injection hk⟩
    · rintro ⟨k, hk⟩
      exact ⟨k, by rw [hk]⟩
  rw [h1, finish_isSome, scan_public, scan_private]
  unfold holdsPublic holdsPrivate
  constructor
  · rintro ⟨hp | ⟨v, hv, _, h2, h3⟩, hq | ⟨w, hw, _, h4, h5⟩⟩
    · exact absurd rfl hp
    · exact absurd rfl hp
    · exact absurd rfl hq
    · exact ⟨⟨v.1, v.2, hv, h2, h3⟩, ⟨w.1, w.2, hw, h4, h5⟩⟩
  · rintro ⟨⟨a, y, hv, h2, h3⟩, ⟨b, z, hw, h4, h5⟩⟩
    exact ⟨Or.inr ⟨(a, y), hv, below_ne hv, h2, h3⟩, Or.inr ⟨(b, z), hw, below_ne hw, h4, h5⟩⟩

theorem isDir_eq_true {y : Node} (h : y.isDir = true) : ∃ cs, y = .dir cs := by
  cases y with
  | dir cs => exact ⟨cs, rfl⟩
  | file d => simp [Node.isDir] at h
  | link t => simp [Node.isDir] at h

theorem aliases_of_dir_store (home : Path) (fs : FS) (rp : Path) (ss : List (String × Node))
    (hl : lstatNode fs (storePath home) = .ok (rp, .dir ss))
    (hw : (Node.dir ss).wf = true) :
    ∃ keys, loadSSHKeys home fs = .ret keys ∧
      ∀ a, (keys.get a).isSome = true ↔
        ∃ q cs, (q, Node.dir cs) ∈ below (storePath home) ss ∧ baseName q = a ∧
          holdsPublic q cs ∧ holdsPrivate q cs := by
  refine ⟨_, loadSSHKeys_dir home fs hl, ?_⟩
  intro a
  constructor
  · intro h
    obtain ⟨k, hk⟩ := Option.isSome_iff_exists.1 h
    rcases keys_get_some home fs a k _ _ hk with h0 | ⟨v, hv, _, hd, hb, hk'⟩
    · simp [KeyMap.get] at h0
    · obtain ⟨q, y⟩ := v
      obtain ⟨cs, rfl⟩ := isDir_eq_true hd
      obtain ⟨rq, hq⟩ := below_lstat_wf fs hl hw hv
      exact ⟨q, cs, hv, hb, (loadSingleKey_some_iff home fs hq).1 ⟨k, hk'⟩⟩
  · rintro ⟨q, cs, hv, hb, hpp⟩
    obtain ⟨rq, hq⟩ := below_lstat_wf fs hl hw hv
    apply keys_get_isSome
    exact Or.inr ⟨(q, .dir cs), hv, below_ne hv, rfl, hb, (loadSingleKey_some_iff home fs hq).2 hpp⟩

/-! ### Flat stores -/

theorem flat_spec {ss : List (String × Node)} (h : flat ss = true) : Flat ss := by
  intro n cs hm m y hy
  unfold flat at h
  rw [List.all_eq_true] at h
  have h1 := h (n, .dir cs) hm
  simp only at h1
  unfold plain at h1
  rw [List.all_eq_true] at h1
  have h2 := h1 (m, y) hy
  simpa using h2

theorem flat_dir_below {p q : Path} {ss cs : List (String × Node)} (hf : Flat ss)
    (h : (q, Node.dir cs) ∈ below p ss) : ∃ n, q = p ++ [n] ∧ (n, Node.dir cs) ∈ ss := by
  obtain ⟨n, x, hm, hv⟩ := mem_below.1 h
  rcases mem_visits.1 hv with ⟨hq, hx⟩ | ⟨es, hx, hb⟩
  · subst hx
    exact ⟨n, hq, hm⟩
  · subst hx
    obtain ⟨m, y, hm', hv'⟩ := mem_below.1 hb
    have hy := hf n es hm m y hm'
    rcases mem_visits.1 hv' with ⟨_, hx⟩ | ⟨es', hx, _⟩
    · rw [← hx] at hy
      simp [Node.isDir] at hy
    · rw [hx] at hy
      simp [Node.isDir] at hy

theorem plain_below {q : Path} {cs : List (String × Node)} {w : Path × Node}
    (hf : ∀ m y, (m, y) ∈ cs → y.isDir = false) (h : w ∈ below q cs) :
    ∃ m, w.1 = q ++ [m] ∧ (m, w.2) ∈ cs := by
  obtain ⟨w1, w2⟩ := w
  obtain ⟨m, y, hm, hv⟩ := mem_below.1 h
  rcases mem_visits.1 hv with ⟨hq, hx⟩ | ⟨es, hx, _⟩
  · subst hx
    exact ⟨m, hq, hm⟩
  · have hy := hf m y hm
    rw [hx] at hy
    simp [Node.isDir] at hy

/-- In a flat store, a key with `IsDefault` set comes from the top-level
directory that holds the target of the default-identity link. -/
theorem default_key_target (home : Path) (fs : FS) {rp : Path} {ss : List (String × Node)}
    {target : PathStr} {a : String} {k : SSHKey}
    (ht : parsePath fs (sshPath home ++ [privateKey]) = .ret target)
    (hl : lstatNode fs (storePath home) = .ok (rp, .dir ss))
    (hw : (Node.dir ss).wf = true) (hf : Flat ss)
    (hk : ((below (storePath home) ss).foldl (addKey home fs) []).get a = some k)
    (hd : k.IsDefault = true) :
    ∃ m, target = some (storePath home ++ [a] ++ [m]) := by
  rcases keys_get_some home fs a k _ _ hk with h0 | ⟨v, hv, _, hdir, hb, hk'⟩
  · simp [KeyMap.get] at h0
  · obtain ⟨q, y⟩ := v
    obtain ⟨cs, rfl⟩ := isDir_eq_true hdir
    obtain ⟨rq, hq⟩ := below_lstat_wf fs hl hw hv
    obtain ⟨n, hqn, hn⟩ := flat_dir_below hf hv
    rw [loadSingleKey_dir home fs ht hq] at hk'
    have hfin : finish ((below q cs).foldl (scanStep target q) emptyKey) = some k := by
      injection hk'
    have hkk := finish_some hfin
    rw [hkk] at hd
    rcases (scan_default target q _ _).1 hd with h0 | ⟨w, hw', _, _, _, hT⟩
    · simp [emptyKey] at h0
    · obtain ⟨m, hm, _⟩ := plain_below (hf n cs hn) hw'
      refine ⟨m, ?_⟩
      simp only at hb hqn
      rw [← hT, hm, hqn]
      rw [hqn, baseName_append] at hb
      rw [hb]

/-- C3 (as amended): in a flat store, at most one alias of the mapping
`loadSSHKeys` returns has `IsDefault` set. -/
theorem loadSSHKeys_atMostOneDefault (home : Path) (fs : FS)
    (hflat : ∀ rp ss, lstatNode fs (storePath home) = .ok (rp, .dir ss) →
      (Node.dir ss).wf = true ∧ flat ss = true) :
    ∃ keys, loadSSHKeys home fs = .ret keys ∧ atMostOneDefault keys := by
  by_cases hd : ∃ rp ss, lstatNode fs (storePath home) = .ok (rp, .dir ss)
  · obtain ⟨rp, ss, hl⟩ := hd
    obtain ⟨hw, hfb⟩ := hflat rp ss hl
    have hf := flat_spec hfb
    obtain ⟨target, ht⟩ := parsePath_ret fs (sshPath home ++ [privateKey])
    refine ⟨_, loadSSHKeys_dir home fs hl, ?_⟩
    intro a b ka kb hka hkb hda hdb
    obtain ⟨m, hm⟩ := default_key_target home fs ht hl hw hf hka hda
    obtain ⟨m', hm'⟩ := default_key_target home fs ht hl hw hf hkb hdb
    rw [hm] at hm'
    simp at hm'
    exact hm'.1
  · refine ⟨[], loadSSHKeys_noDir home fs (fun rp ss h => hd ⟨rp, ss, h⟩), ?_⟩
    intro a b ka kb hka
    simp [KeyMap.get] at hka
/-! ### Updating a directory -/

theorem splitLast_append (p : Path) (n : String) : splitLast (p ++ [n]) = some (p, n) := by
  induction p with
  | nil => rfl
  | cons c rest ih =>
    cases rest with
    | nil => rfl
    | cons d ds =>
      simp only [List.cons_append] at ih ⊢
      rw [splitLast, ih]

theorem lookup_map_same {c : String} (g : String × Node → String × Node)
    (hname : ∀ e, (g e).1 = e.1) :
    ∀ es : List (String × Node),
      lookup c (es.map g) = (lookup c es).map (fun x => (g (c, x)).2) := by
  intro es
  induction es with
  | nil => rfl
  | cons e rest ih =>
    obtain ⟨m, y⟩ := e
    rw [List.map_cons]
    have h1 := hname (m, y)
    cases hg : g (m, y) with
    | mk m' y' =>
      rw [hg] at h1
      simp only at h1
      subst h1
      by_cases hm : m' = c
      · subst hm
        simp only [lookup, if_true, Option.map_some']
        rw [hg]
      · simp only [lookup, if_neg hm]
        exact ih

theorem lookup_map_other {c n : String} (g : String × Node → String × Node)
    (hname : ∀ e, (g e).1 = e.1) (hother : ∀ e, e.1 ≠ c → g e = e) (hn : n ≠ c) :
    ∀ es : List (String × Node), lookup n (es.map g) = lookup n es := by
  intro es
  rw [lookup_map_same g hname]
  cases hl : lookup n es with
  | none => rfl
  | some x =>
    simp only [Option.map_some']
    rw [hother (n, x) hn]

/-- The function `updateEntries` applies to the entries of a directory. -/
theorem bump_name (c : String) (h : List (String × Node) → List (String × Node))
    (e : String × Node) :
    (if e.1 = c then
      match e.2 with
      | .dir s => (e.1, Node.dir (h s))
      | _ => e
    else e).1 = e.1 := by
  split_ifs
  · split <;> rfl
  · rfl

theorem lookup_map_dir {c : String} (h : List (String × Node) → List (String × Node))
    (es sub : List (String × Node)) (hl : lookup c es = some (.dir sub)) :
    lookup c (es.map (fun e =>
      if e.1 = c then
        match e.2 with
        | .dir s => (e.1, Node.dir (h s))
        | _ => e
      else e)) = some (.dir (h sub)) := by
  rw [lookup_map_same _ (bump_name c h), hl]
  simp

theorem dirAt_update (f : List (String × Node) → List (String × Node)) :
    ∀ (d : Path) (root es : List (String × Node)),
      dirAt root d = some es → dirAt (updateEntries f d root) d = some (f es) := by
  intro d
  induction d with
  | nil =>
    intro root es h
    simp only [dirAt] at h
    cases h
    rfl
  | cons c cs ih =>
    intro root es h
    simp only [dirAt] at h
    cases hl : lookup c root with
    | none => simp [hl] at h
    | some x =>
      cases x with
      | file d => simp [hl] at h
      | link t => simp [hl] at h
      | dir sub =>
        simp only [hl] at h
        simp only [updateEntries, dirAt]
        rw [lookup_map_dir (updateEntries f cs) root sub hl]
        exact ih sub es h

theorem dirAt_append {root : List (String × Node)} {d : Path} {c : String}
    {es : List (String × Node)} :
    dirAt root (d ++ [c]) = some es ↔
      ∃ ds, dirAt root d = some ds ∧ lookup c ds = some (.dir es) := by
  induction d generalizing root with
  | nil =>
    simp only [List.nil_append, dirAt]
    cases hl : lookup c root with
    | none => simp [hl]
    | some x => cases x <;> simp [hl]
  | cons a rest ih =>
    simp only [List.cons_append, dirAt]
    cases hl : lookup a root with
    | none => simp
    | some x =>
      cases x with
      | file d => simp
      | link t => simp
      | dir sub => simpa using ih

/-- Updating the directory `d/c` leaves the other entries of `d` as they are. -/
theorem dirAt_update_sibling (f : List (String × Node) → List (String × Node)) {c n : String}
    (hn : n ≠ c) :
    ∀ (d : Path) (root ds : List (String × Node)),
      dirAt root d = some ds →
      ∃ ds', dirAt (updateEntries f (d ++ [c]) root) d = some ds' ∧
        lookup n ds' = lookup n ds := by
  intro d
  induction d with
  | nil =>
    intro root ds h
    simp only [dirAt] at h
    cases h
    refine ⟨_, rfl, ?_⟩
    simp only [List.nil_append, updateEntries]
    apply lookup_map_other _ (bump_name c _) _ hn
    intro e he
    rw [if_neg he]
  | cons a rest ih =>
    intro root ds h
    simp only [dirAt] at h
    cases hl : lookup a root with
    | none => simp [hl] at h
    | some x =>
      cases x with
      | file d => simp [hl] at h
      | link t => simp [hl] at h
      | dir sub =>
        simp only [hl] at h
        obtain ⟨ds', h1, h2⟩ := ih sub ds h
        refine ⟨ds', ?_, h2⟩
        rw [show (a :: rest) ++ [c] = a :: (rest ++ [c]) from rfl, updateEntries, dirAt,
          lookup_map_dir (updateEntries f (rest ++ [c])) root sub hl]
        exact h1

theorem lookup_filter_keep {n : String} (p : String × Node → Bool)
    (hp : ∀ e, e.1 = n → p e = true) :
    ∀ es : List (String × Node), lookup n (es.filter p) = lookup n es := by
  intro es
  induction es with
  | nil => rfl
  | cons e rest ih =>
    obtain ⟨a, y⟩ := e
    by_cases hpe : p (a, y) = true
    · rw [List.filter_cons_of_pos hpe]
      simp only [lookup]
      rw [ih]
    · rw [List.filter_cons_of_neg hpe, ih]
      have : a ≠ n := fun h => hpe (hp _ h)
      simp [lookup, this]

theorem lookup_filter_drop {n : String} (p : String × Node → Bool)
    (hp : ∀ e, e.1 = n → p e = false) :
    ∀ es : List (String × Node), lookup n (es.filter p) = none := by
  intro es
  induction es with
  | nil => rfl
  | cons e rest ih =>
    obtain ⟨a, y⟩ := e
    by_cases hpe : p (a, y) = true
    · rw [List.filter_cons_of_pos hpe]
      have : a ≠ n := by
        intro h
        rw [hp _ h] at hpe
        cases hpe
      simp only [lookup, if_neg this]
      exact ih
    · rw [List.filter_cons_of_neg hpe, ih]

theorem lookup_erase_self (n : String) (es : List (String × Node)) :
    lookup n (eraseEntry n es) = none := by
  unfold eraseEntry
  apply lookup_filter_drop
  intro e he
  simp [he]

theorem lookup_erase_other {n m : String} (h : n ≠ m) (es : List (String × Node)) :
    lookup n (eraseEntry m es) = lookup n es := by
  unfold eraseEntry
  apply lookup_filter_keep
  intro e he
  simp [he, h]

theorem lookup_insert_self (n : String) (x : Node) :
    ∀ es : List (String × Node), lookup n es = none → lookup n (insertEntry n x es) = some x := by
  intro es
  induction es with
  | nil => intro _; simp [insertEntry, lookup]
  | cons e rest ih =>
    obtain ⟨m, y⟩ := e
    intro h
    simp only [lookup] at h
    split_ifs at h with hm
    unfold insertEntry
    split_ifs
    · simp [lookup]
    · simp only [lookup, if_neg hm]
      exact ih h

theorem lookup_insert_other {n m : String} (x : Node) (h : n ≠ m) :
    ∀ es : List (String × Node), lookup n (insertEntry m x es) = lookup n es := by
  intro es
  induction es with
  | nil => simp [insertEntry, lookup, Ne.symm h]
  | cons e rest ih =>
    obtain ⟨a, y⟩ := e
    unfold insertEntry
    split_ifs
    · simp [lookup, Ne.symm h]
    · simp only [lookup]
      rw [ih]
/-! ### The calls of clearKey and createLink on `home/.ssh` -/

theorem lstatNode_dirAt (fs : FS) {p : Path} {es : List (String × Node)}
    (h : dirAt fs.root p = some es) : lstatNode fs p = .ok (p, .dir es) :=
  namei_dirAt fs false maxSymlinks h

theorem statNode_dirAt (fs : FS) {p : Path} {es : List (String × Node)}
    (h : dirAt fs.root p = some es) : statNode fs p = .ok (p, .dir es) :=
  namei_dirAt fs true maxSymlinks h

theorem lstatNode_sibling (fs : FS) {d : Path} {c : String} {es : List (String × Node)}
    (n : String) (h : dirAt fs.root (d ++ [c]) = some es) :
    ∃ ds, dirAt fs.root d = some ds ∧
      lstatNode fs (d ++ [n]) =
        match lookup n ds with
        | none => .error .ENOENT
        | some x => .ok (d ++ [n], x) := by
  obtain ⟨ds, hd, _⟩ := dirAt_append.1 h
  refine ⟨ds, hd, ?_⟩
  have := lstatNode_dirAt fs hd
  unfold lstatNode at this ⊢
  exact namei_append fs _ _ _ _ this

theorem stage_update {home : Path} {r : Except Errno (Path × Node)} {fs : FS}
    {es : List (String × Node)} (f : List (String × Node) → List (String × Node))
    (h : Stage home r fs es) :
    Stage home r ⟨updateEntries f (sshPath home) fs.root⟩ (f es) := by
  obtain ⟨h1, h2⟩ := h
  refine ⟨dirAt_update f _ _ _ h1, ?_⟩
  unfold sshPath at h1
  obtain ⟨ds, hd, hl⟩ := lstatNode_sibling fs ".skm" h1
  have hne : (".skm" : String) ≠ ".ssh" := by decide
  obtain ⟨ds', hd', hlk⟩ := dirAt_update_sibling f hne home fs.root ds hd
  have h3 : dirAt (FS.mk (updateEntries f (home ++ [".ssh"]) fs.root)).root home = some ds' := hd'
  have h4 := lstatNode_dirAt _ h3
  unfold storePath at h2 ⊢
  unfold sshPath
  rw [← h2, hl]
  unfold lstatNode at h4 ⊢
  rw [namei_append _ _ _ _ _ h4, hlk]

theorem Remove_stage {home : Path} {r : Except Errno (Path × Node)} {fs : FS}
    {es : List (String × Node)} (n : String) (h : Stage home r fs es) :
    ∃ es', Stage home r (Remove fs (sshPath home ++ [n])).1 es' ∧
      (∀ m, m ≠ n → lookup m es' = lookup m es) ∧
      (lookup n es = none → lookup n es' = none) ∧
      (∀ y, lookup n es = some y → y.isDir = false → lookup n es' = none) := by
  unfold Remove
  rw [splitLast_append]
  simp only
  rw [statNode_dirAt fs h.1]
  simp only
  cases hl : lookup n es with
  | none =>
    refine ⟨es, h, fun _ _ => rfl, fun _ => hl, ?_⟩
    intro y hy
    cases hy
  | some x =>
    have hupd : ∃ es', Stage home r ⟨updateEntries (eraseEntry n) (sshPath home) fs.root⟩ es' ∧
        (∀ m, m ≠ n → lookup m es' = lookup m es) ∧
        (lookup n es = none → lookup n es' = none) ∧
        (∀ y, lookup n es = some y → y.isDir = false → lookup n es' = none) :=
      ⟨_, stage_update _ h, fun m hm => lookup_erase_other hm es,
        fun _ => lookup_erase_self n es, fun _ _ _ => lookup_erase_self n es⟩
    rw [hl] at hupd
    cases x with
    | file d => exact hupd
    | link t => exact hupd
    | dir sub =>
      cases sub with
      | nil => exact hupd
      | cons e rest =>
        refine ⟨es, h, fun _ _ => rfl, ?_, ?_⟩
        · intro h0
          cases h0
        · intro y hy hd
          cases hy
          simp [Node.isDir] at hd

theorem Symlink_stage {home : Path} {r : Except Errno (Path × Node)} {fs : FS}
    {es : List (String × Node)} (n : String) (t : Path) (h : Stage home r fs es) :
    ∃ es', Stage home r (Symlink fs t (sshPath home ++ [n])).1 es' ∧
      (∀ m, m ≠ n → lookup m es' = lookup m es) ∧
      (lookup n es = none → lookup n es' = some (.link t)) := by
  unfold Symlink
  rw [splitLast_append]
  simp only
  rw [statNode_dirAt fs h.1]
  simp only
  cases hl : lookup n es with
  | none =>
    exact ⟨_, stage_update _ h, fun m hm => lookup_insert_other _ hm es,
      fun _ => lookup_insert_self n _ es hl⟩
  | some x =>
    refine ⟨es, h, fun _ _ => rfl, ?_⟩
    intro h0
    cases h0

theorem Lstat_stage {home : Path} {r : Except Errno (Path × Node)} {fs : FS}
    {es : List (String × Node)} (n : String) (h : Stage home r fs es) :
    lstatNode fs (sshPath home ++ [n]) =
      match lookup n es with
      | none => .error .ENOENT
      | some x => .ok (sshPath home ++ [n], x) := by
  have := lstatNode_dirAt fs h.1
  unfold lstatNode at this ⊢
  exact namei_append fs _ _ _ _ this

/-- When the entry at `sshPath/id_rsa` is absent, or is not a directory and
`Stat` on it does not report that it does not exist, `createLink` leaves there
a symbolic link to `storePath/alias/id_rsa`, and does not touch the store. -/
theorem createLink_installs {home : Path} {r : Except Errno (Path × Node)} {fs : FS}
    {es : List (String × Node)} (aliasName : String) (h : Stage home r fs es)
    (hclear : lookup privateKey es = none ∨
      ∃ y, lookup privateKey es = some y ∧ y.isDir = false ∧
        IsNotExist (Stat fs (sshPath home ++ [privateKey])) = false) :
    ∃ es', Stage home r (createLink home fs aliasName) es' ∧
      lookup privateKey es' = some (.link (storePath home ++ [aliasName, privateKey])) := by
  have hne : privateKey ≠ publicKey := by decide
  -- the first statement of clearKey
  have h1 : ∃ es1, Stage home r
      (if !IsNotExist (Stat fs (sshPath home ++ [privateKey])) then
        (Remove fs (sshPath home ++ [privateKey])).1 else fs) es1 ∧
      lookup privateKey es1 = none := by
    obtain ⟨es1, hs1, _, hnone, hsome⟩ := Remove_stage privateKey h
    rcases hclear with hc | ⟨y, hy, hd, hstat⟩
    · split_ifs
      · exact ⟨es1, hs1, hnone hc⟩
      · exact ⟨es, h, hc⟩
    · rw [hstat]
      exact ⟨es1, hs1, hsome y hy hd⟩
  obtain ⟨es1, hs1, hl1⟩ := h1
  -- the second statement of clearKey
  have h2 : ∀ (fs1 : FS) (es1 : List (String × Node)), Stage home r fs1 es1 →
      lookup privateKey es1 = none →
      ∃ es2, Stage home r
        (if !IsNotExist (Stat fs1 (sshPath home ++ [publicKey])) then
          (Remove fs1 (sshPath home ++ [publicKey])).1 else fs1) es2 ∧
        lookup privateKey es2 = none := by
    intro fs1 es1 hs1 hl1
    obtain ⟨es2, hs2, hother, _, _⟩ := Remove_stage publicKey hs1
    split_ifs
    · exact ⟨es2, hs2, by rw [hother _ hne, hl1]⟩
    · exact ⟨es1, hs1, hl1⟩
  obtain ⟨es2, hs2, hl2⟩ : ∃ es2, Stage home r (clearKey home fs) es2 ∧
      lookup privateKey es2 = none := h2 _ es1 hs1 hl1
  -- the two links
  obtain ⟨es3, hs3, _, hl3⟩ := Symlink_stage privateKey (storePath home ++ [aliasName, privateKey]) hs2
  obtain ⟨es4, hs4, hother4, _⟩ :=
    Symlink_stage publicKey (storePath home ++ [aliasName, publicKey]) hs3
  exact ⟨es4, hs4, by rw [hother4 _ hne, hl3 hl2]⟩
/-! ### Activation followed by discovery -/

theorem strContains_privateKey : strContains privateKey ".pub" = false := by decide

/-- C2 (as amended): after `createLink a`, discovery marks `a` and no other
alias, when the store is flat, the directory of `a` holds an entry `id_rsa`,
and the entry at `sshPath/id_rsa` is absent or is one that `clearKey` removes. -/
theorem createLink_marks_default (home : Path) (fs : FS) (a : String) (rp : Path)
    (es ss : List (String × Node))
    (hssh : dirAt fs.root (sshPath home) = some es)
    (hstore : lstatNode fs (storePath home) = .ok (rp, .dir ss))
    (hw : (Node.dir ss).wf = true) (hfb : flat ss = true)
    (hlisted : ∃ keys k, loadSSHKeys home fs = .ret keys ∧ keys.get a = some k)
    (hpriv : ∃ info, Lstat fs (storePath home ++ [a, privateKey]) = .ok info)
    (hclear : Lstat fs (sshPath home ++ [privateKey]) = .error .ENOENT ∨
      ∃ info, Lstat fs (sshPath home ++ [privateKey]) = .ok info ∧ info.isDir = false ∧
        IsNotExist (Stat fs (sshPath home ++ [privateKey])) = false) :
    ∃ keys k, loadSSHKeys home (createLink home fs a) = .ret keys ∧
      keys.get a = some k ∧ k.IsDefault = true ∧
      ∀ b kb, b ≠ a → keys.get b = some kb → kb.IsDefault = false := by
  have hf := flat_spec hfb
  have hst : Stage home (.ok (rp, .dir ss)) fs es := ⟨hssh, hstore⟩
  -- the alias directory before the activation
  obtain ⟨keys, k, hkeys, hk⟩ := hlisted
  rw [loadSSHKeys_dir home fs hstore] at hkeys
  injection hkeys with hkeys
  subst hkeys
  rcases keys_get_some home fs a k _ _ hk with h0 | ⟨v, hv, _, hdir, hb, hk'⟩
  · simp [KeyMap.get] at h0
  obtain ⟨q, y⟩ := v
  obtain ⟨cs, rfl⟩ := isDir_eq_true hdir
  obtain ⟨n, hqn, hn⟩ := flat_dir_below hf hv
  simp only at hb hqn
  rw [hqn, baseName_append] at hb
  have hna : a = n := hb.symm
  subst hna
  subst hqn
  obtain ⟨rq, hq⟩ := below_lstat_wf fs hstore hw hv
  have hpp := (loadSingleKey_some_iff home fs hq).1 ⟨k, hk'⟩
  -- its entry id_rsa
  obtain ⟨pinfo, hpinfo⟩ := hpriv
  have hpk : ∃ y, (privateKey, y) ∈ cs := by
    have hpath : storePath home ++ [a, privateKey] = (storePath home ++ [a]) ++ [privateKey] := by
      simp
    rw [hpath] at hpinfo
    cases hl : lookup privateKey cs with
    | none =>
      unfold Lstat at hpinfo
      rw [lstatNode_child_none fs hq hl] at hpinfo
      cases hpinfo
    | some y => exact ⟨y, lookup_mem hl⟩
  obtain ⟨y, hy⟩ := hpk
  have hyd : y.isDir = false := hf a cs hn _ _ hy
  -- the state after the activation
  have hclear' : lookup privateKey es = none ∨
      ∃ y, lookup privateKey es = some y ∧ y.isDir = false ∧
        IsNotExist (Stat fs (sshPath home ++ [privateKey])) = false := by
    have hls := Lstat_stage privateKey hst
    unfold Lstat at hclear
    rw [hls] at hclear
    cases hl : lookup privateKey es with
    | none => exact Or.inl rfl
    | some x =>
      right
      rw [hl] at hclear
      rcases hclear with hc | ⟨info, hi, hd, hs⟩
      · cases hc
      · refine ⟨x, rfl, ?_, hs⟩
        simp only at hi
        injection hi with hi
        rw [← hi] at hd
        exact hd
  obtain ⟨es', hst', hlink⟩ := createLink_installs a hst hclear'
  have ht' : parsePath (createLink home fs a) (sshPath home ++ [privateKey]) =
      .ret (some (storePath home ++ [a, privateKey])) := by
    rw [parsePath_eq, Lstat_stage privateKey hst', hlink]
  have hstore' := hst'.2
  obtain ⟨rq', hq'⟩ := below_lstat_wf (createLink home fs a) hstore' hw hv
  -- the key of the alias
  have hsome := (loadSingleKey_some_iff home (createLink home fs a) hq').2 hpp
  have hget : ((List.foldl (addKey home (createLink home fs a)) []
      (below (storePath home) ss)).get a).isSome = true :=
    keys_get_isSome home _ a _ _
      (Or.inr ⟨(storePath home ++ [a], .dir cs), hv, below_ne hv, rfl, baseName_append _ _, hsome⟩)
  obtain ⟨k2, hk2⟩ := Option.isSome_iff_exists.1 hget
  refine ⟨_, k2, loadSSHKeys_dir home _ hstore', hk2, ?_, ?_⟩
  · rcases keys_get_some home _ a k2 _ _ hk2 with h0 | ⟨v, hv2, _, hdir2, hb2, hk2'⟩
    · simp [KeyMap.get] at h0
    obtain ⟨q2, y2⟩ := v
    obtain ⟨cs2, rfl⟩ := isDir_eq_true hdir2
    obtain ⟨n2, hqn2, _⟩ := flat_dir_below hf hv2
    simp only at hb2 hqn2
    rw [hqn2, baseName_append] at hb2
    have hna2 : a = n2 := hb2.symm
    subst hna2
    subst hqn2
    rw [loadSingleKey_dir home _ ht' hq'] at hk2'
    have hfin : finish ((below (storePath home ++ [a]) cs).foldl
        (scanStep (some (storePath home ++ [a, privateKey])) (storePath home ++ [a]))
        emptyKey) = some k2 := by
      injection hk2'
    rw [finish_some hfin]
    apply (scan_default _ _ _ _).2
    right
    have hmem : (storePath home ++ [a] ++ [privateKey], y) ∈ below (storePath home ++ [a]) cs :=
      mem_below.2 ⟨privateKey, y, hy, mem_visits.2 (Or.inl ⟨rfl, rfl⟩)⟩
    refine ⟨_, hmem, below_ne hmem, hyd, ?_, ?_⟩
    · simp only
      rw [baseName_append]
      exact strContains_privateKey
    · simp
  · intro b kb hba hkb
    by_contra hd
    have hd' : kb.IsDefault = true := by
      cases h : kb.IsDefault
      · exact absurd h hd
      · rfl
    obtain ⟨m, hm⟩ := default_key_target home _ ht' hstore' hw hf hkb hd'
    simp at hm
    exact hba hm.1.symm

/-! ## The properties of the specification, claim by claim -/

/-- C1 (the code departs from the claim): with the default-identity links
pointing at files that do not exist, `createLink "B"` leaves both links as
they are; the state is the one `createLink "A"` makes for an alias `A` that is
not in the store. -/
theorem createLink_keeps_dangling_links :
    (Node.dir fsDangling.root).wf = true ∧
    createLink homeU (mkFS (oneAlias "B") []) "A" = fsDangling ∧
    Readlink (createLink homeU fsDangling "B") (sshPath homeU ++ [privateKey]) =
      .ok (storePath homeU ++ ["A", privateKey]) ∧
    Readlink (createLink homeU fsDangling "B") (sshPath homeU ++ [publicKey]) =
      .ok (storePath homeU ++ ["A", publicKey]) ∧
    createLink homeU fsDangling "B" = fsDangling :=
  ⟨by decide, rfl, by decide, by decide, rfl⟩

/-- C2 (counterexample): alias `A` is listed, its key pair is not named
`id_rsa`, `id_rsa.pub`; after `createLink "A"` discovery does not mark it. -/
theorem createLink_otherNames_not_default :
    loadSSHKeys homeU fsOtherNames =
      .ret [("A", ⟨some (inStore "A" "id_ed25519.pub"), some (inStore "A" "id_ed25519"), false⟩)] ∧
    loadSSHKeys homeU (createLink homeU fsOtherNames "A") =
      .ret [("A", ⟨some (inStore "A" "id_ed25519.pub"), some (inStore "A" "id_ed25519"), false⟩)] ∧
    ¬ ∃ keys k, loadSSHKeys homeU (createLink homeU fsOtherNames "A") = .ret keys ∧
      keys.get "A" = some k ∧ k.IsDefault = true := by
  have h : loadSSHKeys homeU (createLink homeU fsOtherNames "A") =
      .ret [("A", ⟨some (inStore "A" "id_ed25519.pub"), some (inStore "A" "id_ed25519"), false⟩)] := by
    decide
  refine ⟨by decide, h, ?_⟩
  rintro ⟨keys, k, hk, hg, hd⟩
  rw [h] at hk
  injection hk with hk
  subst hk
  simp [KeyMap.get] at hg
  subst hg
  simp at hd

/-- C3 (counterexample): with the key pair in a directory inside an alias
directory, discovery returns two aliases with `IsDefault` set. -/
theorem loadSSHKeys_nested_two_defaults :
    (Node.dir fsNestedActive.root).wf = true ∧
    loadSSHKeys homeU fsNestedActive =
      .ret [("sub", ⟨some ["home", "u", ".skm", "A", "sub", "id_rsa.pub"],
              some ["home", "u", ".skm", "A", "sub", "id_rsa"], true⟩),
            ("A", ⟨some ["home", "u", ".skm", "A", "sub", "id_rsa.pub"],
              some ["home", "u", ".skm", "A", "sub", "id_rsa"], true⟩)] ∧
    ¬ ∃ keys, loadSSHKeys homeU fsNestedActive = .ret keys ∧ atMostOneDefault keys := by
  have h : loadSSHKeys homeU fsNestedActive =
      .ret [("sub", ⟨some ["home", "u", ".skm", "A", "sub", "id_rsa.pub"],
              some ["home", "u", ".skm", "A", "sub", "id_rsa"], true⟩),
            ("A", ⟨some ["home", "u", ".skm", "A", "sub", "id_rsa.pub"],
              some ["home", "u", ".skm", "A", "sub", "id_rsa"], true⟩)] := by
    decide
  refine ⟨by decide, h, ?_⟩
  rintro ⟨keys, hk, hone⟩
  rw [h] at hk
  injection hk with hk
  subst hk
  have := hone "sub" "A" _ _ rfl rfl rfl rfl
  exact absurd this (by decide)

/-- C4 (counterexample): discovery returns the alias `sub`, which is not an
entry of the store root, and the alias `A`, whose directory holds no file. -/
theorem loadSSHKeys_nested_aliases :
    (Node.dir fsNested.root).wf = true ∧
    loadSSHKeys homeU fsNested =
      .ret [("sub", ⟨some ["home", "u", ".skm", "A", "sub", "id_rsa.pub"],
              some ["home", "u", ".skm", "A", "sub", "id_rsa"], false⟩),
            ("A", ⟨some ["home", "u", ".skm", "A", "sub", "id_rsa.pub"],
              some ["home", "u", ".skm", "A", "sub", "id_rsa"], false⟩)] ∧
    Lstat fsNested (storePath homeU ++ ["sub"]) = .error .ENOENT ∧
    Lstat fsNested (storePath homeU ++ ["A", "sub"]) = .ok ⟨"sub", true, false⟩ ∧
    Lstat fsNested (storePath homeU ++ ["A", "id_rsa"]) = .error .ENOENT ∧
    Lstat fsNested (storePath homeU ++ ["A", "id_rsa.pub"]) = .error .ENOENT :=
  ⟨by decide, by decide, by decide, by decide, by decide, by decide⟩

/-- C5 (the code departs from the claim): the key of an alias directory with
a third file has `IsDefault` set although its `PrivateKey` is not the path
`parsePath` returns for the default-identity location. -/
theorem loadSingleKey_default_not_target :
    (Node.dir fsThreeFiles.root).wf = true ∧
    loadSingleKey homeU fsThreeFiles (storePath homeU ++ ["A"]) =
      .ret (some ⟨some (inStore "A" "id_rsa.pub"), some (inStore "A" "notes.txt"), true⟩) ∧
    parsePath fsThreeFiles (sshPath homeU ++ [privateKey]) = .ret (some (inStore "A" "id_rsa")) ∧
    loadSSHKeys homeU fsThreeFiles =
      .ret [("A", ⟨some (inStore "A" "id_rsa.pub"), some (inStore "A" "notes.txt"), true⟩)] :=
  ⟨by decide, by decide, by decide, by decide⟩

/-- C6 (the code departs from the claim): deleting the active alias `A` with
the answer "y" leaves the link at `sshPath/id_rsa.pub`, whose target does not
exist; the state is the one `createLink "A"` makes. -/
theorem deleteKey_leaves_public_link :
    createLink homeU fsKeyPub "A" =
      mkFS [("A", .dir [("id_rsa", .file "private key"), ("key.pub", .file "public key")])]
        [("id_rsa", .link (inStore "A" "id_rsa")),
         ("id_rsa.pub", .link (inStore "A" "id_rsa.pub"))] ∧
    loadSSHKeys homeU (createLink homeU fsKeyPub "A") =
      .ret [("A", ⟨some (inStore "A" "key.pub"), some (inStore "A" "id_rsa"), true⟩)] ∧
    parsePath (createLink homeU fsKeyPub "A") (sshPath homeU ++ [privateKey]) =
      .ret (some (inStore "A" "id_rsa")) ∧
    deleteKey homeU (createLink homeU fsKeyPub "A") "A"
        ⟨some (inStore "A" "key.pub"), some (inStore "A" "id_rsa"), true⟩ "y" =
      .ret (mkFS [] [("id_rsa.pub", .link (inStore "A" "id_rsa.pub"))]) ∧
    Lstat (mkFS [] [("id_rsa.pub", .link (inStore "A" "id_rsa.pub"))])
        (sshPath homeU ++ [publicKey]) = .ok ⟨"id_rsa.pub", false, true⟩ :=
  ⟨rfl, by decide, by decide, rfl, by decide⟩

/-- C8 (the code departs from the claim): with `sshPath/id_rsa` a link to the
empty location `sshPath/id_rsa.pub`, the first `createLink "a"` leaves that
link and the second one replaces it, so the two states differ. -/
theorem createLink_twice_differs :
    (Node.dir fsCrossed.root).wf = true ∧
    createLink homeU fsCrossed "a" =
      mkFS (oneAlias "a")
        [("id_rsa", .link ["home", "u", ".ssh", "id_rsa.pub"]),
         ("id_rsa.pub", .link (inStore "a" "id_rsa.pub"))] ∧
    createLink homeU (createLink homeU fsCrossed "a") "a" =
      mkFS (oneAlias "a")
        [("id_rsa", .link (inStore "a" "id_rsa")),
         ("id_rsa.pub", .link (inStore "a" "id_rsa.pub"))] ∧
    createLink homeU (createLink homeU fsCrossed "a") "a" ≠ createLink homeU fsCrossed "a" := by
  refine ⟨by decide, rfl, rfl, ?_⟩
  intro h
  have h1 := congrArg (fun s => Readlink s (sshPath homeU ++ [privateKey])) h
  exact absurd h1 (by decide)

/-- C4 (as amended): when the walk of the store raises no error, discovery
returns exactly the base names of the directories at any depth below the
store root whose subtree holds, at any depth, a non-directory entry with
".pub" in its name and one without. -/
theorem loadSSHKeys_aliases (home : Path) (fs : FS) (rp : Path) (n : Node)
    (hl : lstatNode fs (storePath home) = .ok (rp, n)) (hw : n.wf = true) :
    ∃ keys, loadSSHKeys home fs = .ret keys ∧
      ∀ a, (keys.get a).isSome = true ↔
        ∃ q cs, (q, Node.dir cs) ∈ visits (storePath home) n ∧ q ≠ storePath home ∧
          baseName q = a ∧ holdsPublic q cs ∧ holdsPrivate q cs := by
  cases n with
  | dir ss =>
    obtain ⟨keys, hk, hiff⟩ := aliases_of_dir_store home fs rp ss hl hw
    refine ⟨keys, hk, fun a => ?_⟩
    rw [hiff]
    constructor
    · rintro ⟨q, cs, hv, rest⟩
      refine ⟨q, cs, ?_, below_ne hv, rest⟩
      rw [visits]
      exact List.mem_cons_of_mem _ hv
    · rintro ⟨q, cs, hv, hne, rest⟩
      rw [visits, List.mem_cons] at hv
      rcases hv with h | h
      · exact absurd (Prod.mk.inj h).1 hne
      · exact ⟨q, cs, h, rest⟩
  | file d =>
    refine ⟨[], loadSSHKeys_noDir home fs (fun rp' ss h => ?_), fun a => ?_⟩
    · rw [hl] at h
      cases h
    · constructor
      · intro h
        simp [KeyMap.get] at h
      · rintro ⟨q, cs, hv, _⟩
        simp [visits] at hv
  | link t =>
    refine ⟨[], loadSSHKeys_noDir home fs (fun rp' ss h => ?_), fun a => ?_⟩
    · rw [hl] at h
      cases h
    · constructor
      · intro h
        simp [KeyMap.get] at h
      · rintro ⟨q, cs, hv, _⟩
        simp [visits] at hv

/-- C4, witness: for the store with `A` = (private, public) and `B` = (private
only) discovery returns the alias `A` alone. -/
theorem loadSSHKeys_aliases_example :
    loadSSHKeys homeU fsAB =
      .ret [("A", ⟨some (inStore "A" "id_rsa.pub"), some (inStore "A" "id_rsa"), false⟩)] ∧
    ∃ keys, loadSSHKeys homeU fsAB = .ret keys ∧
      ∀ a, (keys.get a).isSome = true ↔
        ∃ q cs, (q, Node.dir cs) ∈
            visits (storePath homeU)
              (.dir [("A", pair "id_rsa" "id_rsa.pub"),
                ("B", .dir [("id_rsa", .file "private key")])]) ∧
          q ≠ storePath homeU ∧ baseName q = a ∧ holdsPublic q cs ∧ holdsPrivate q cs :=
  ⟨by decide, loadSSHKeys_aliases homeU fsAB (storePath homeU) _ rfl (by decide)⟩

/-- C3, witness: the state with the aliases `A` and `B`, `A` active. -/
theorem loadSSHKeys_atMostOneDefault_example :
    loadSSHKeys homeU fsSwitch =
      .ret [("B", ⟨some (inStore "B" "id_rsa.pub"), some (inStore "B" "id_rsa"), false⟩),
            ("A", ⟨some (inStore "A" "id_rsa.pub"), some (inStore "A" "id_rsa"), true⟩)] ∧
    ∃ keys, loadSSHKeys homeU fsSwitch = .ret keys ∧ atMostOneDefault keys :=
  ⟨by decide, loadSSHKeys_atMostOneDefault homeU fsSwitch (fun rp ss h => by
    have h0 : lstatNode fsSwitch (storePath homeU) =
        .ok (storePath homeU,
          .dir [("A", pair "id_rsa" "id_rsa.pub"), ("B", pair "id_rsa" "id_rsa.pub")]) := rfl
    rw [h0] at h
    cases h
    exact ⟨by decide, by decide⟩)⟩

/-- C2, witness: activating `B` while `A` is active. -/
theorem createLink_marks_default_example :
    loadSSHKeys homeU (createLink homeU fsSwitch "B") =
      .ret [("B", ⟨some (inStore "B" "id_rsa.pub"), some (inStore "B" "id_rsa"), true⟩),
            ("A", ⟨some (inStore "A" "id_rsa.pub"), some (inStore "A" "id_rsa"), false⟩)] ∧
    ∃ keys k, loadSSHKeys homeU (createLink homeU fsSwitch "B") = .ret keys ∧
      keys.get "B" = some k ∧ k.IsDefault = true ∧
      ∀ b kb, b ≠ "B" → keys.get b = some kb → kb.IsDefault = false :=
  ⟨by decide,
    createLink_marks_default homeU fsSwitch "B" (storePath homeU)
      [("id_rsa", .link (inStore "A" "id_rsa")), ("id_rsa.pub", .link (inStore "A" "id_rsa.pub"))]
      [("A", pair "id_rsa" "id_rsa.pub"), ("B", pair "id_rsa" "id_rsa.pub")]
      rfl rfl (by decide) (by decide)
      ⟨[("B", ⟨some (inStore "B" "id_rsa.pub"), some (inStore "B" "id_rsa"), false⟩),
          ("A", ⟨some (inStore "A" "id_rsa.pub"), some (inStore "A" "id_rsa"), true⟩)],
        ⟨some (inStore "B" "id_rsa.pub"), some (inStore "B" "id_rsa"), false⟩,
        by decide, by decide⟩
      ⟨⟨"id_rsa", false, false⟩, by decide⟩
      (Or.inr ⟨⟨"id_rsa", false, true⟩, by decide, rfl, by decide⟩)⟩

/-- C7, witness: the answers "n", "", "Y" and "yes" leave the state as it is. -/
theorem deleteKey_decline_example :
    deleteKey homeU fsSwitch "A"
        ⟨some (inStore "A" "id_rsa.pub"), some (inStore "A" "id_rsa"), true⟩ "n" = .ret fsSwitch ∧
    deleteKey homeU fsSwitch "A"
        ⟨some (inStore "A" "id_rsa.pub"), some (inStore "A" "id_rsa"), true⟩ "" = .ret fsSwitch ∧
    deleteKey homeU fsSwitch "A"
        ⟨some (inStore "A" "id_rsa.pub"), some (inStore "A" "id_rsa"), true⟩ "Y" = .ret fsSwitch ∧
    deleteKey homeU fsSwitch "A"
        ⟨some (inStore "A" "id_rsa.pub"), some (inStore "A" "id_rsa"), true⟩ "yes" = .ret fsSwitch :=
  ⟨deleteKey_decline _ _ _ _ _ (by decide), deleteKey_decline _ _ _ _ _ (by decide),
    deleteKey_decline _ _ _ _ _ (by decide), deleteKey_decline _ _ _ _ _ (by decide)⟩

/-- C9: `parsePath p` returns the empty string when `lstat p` fails, the
stored target when the entry at `p` is a symbolic link, and `p` itself
otherwise; it never ends the process, and it returns no state. -/
theorem parsePath_resolves (fs : FS) (p : Path) :
    parsePath fs p =
      match lstatNode fs p with
      | .error _ => .ret none
      | .ok (_, .link t) => .ret (some t)
      | .ok _ => .ret (some p) :=
  parsePath_eq fs p

end Skm
